import Mathlib

/-!
Verification of the sponge/padding core of an educational cryptography
library (`crypto/padding.py`, `crypto/sponge.py`, `crypto/sponge_crypto.py`,
`crypto/keccak.py`, `crypto/sha3.py`).

Byte strings are modelled as `List Nat` (each entry one byte value).
Python `while` loops are modelled as fuel-based recursion; at every call
site the fuel passed is large enough, and the theorems prove the loops
terminate normally under the stated preconditions.  Python exceptions
(`ValueError`, failing `assert`) are modelled with `Except String`.
-/

/-- Byte strings: a list of byte values (each `< 256` in well-formed data). -/
abbrev Bytes := List Nat

namespace PyCrypto

/-! ## padding.py : helper functions -/

/-- Replace the last byte `b` of `ap` by `b ||| v` (Python `ap[-1] |= v`).
Call sites guarantee `ap` is nonempty. -/
def setLastOr (ap : Bytes) (v : Nat) : Bytes :=
  ap.dropLast ++ [ap.getLastD 0 ||| v]

/-- `_cutoff_little(data, bitlength)`: keep only the first `bitlength` bits,
little-endian bit order.  Returns `(data, appendum, remaining_bits)`.
The Python `assert s <= len(data)` is a precondition (all theorems assume
`bitlength ≤ 8 * data.length`); the embedding is total via `List.take`. -/
def cutoff_little (data : Bytes) (bitlength : Option Nat) : Bytes × Bytes × Nat :=
  match bitlength with
  | none => (data, [], 0)
  | some bl =>
    let s := (bl + 7) / 8
    let data' := data.take s
    let r := bl % 8
    if r > 0 then
      (data'.take (s - 1), [data'.getD (s - 1) 0 &&& ((1 <<< r) - 1)], 8 - r)
    else
      (data', [], 0)

/-- `_add_bit_little`: append one bit (little-endian bit order) to the
`(data, appendum, remaining_bits)` triple. -/
def add_bit_little (t : Bytes × Bytes × Nat) (is_set : Bool) : Bytes × Bytes × Nat :=
  let (data, ap, rem) := t
  if rem > 0 then
    (data, if is_set then setLastOr ap (1 <<< (8 - rem)) else ap, rem - 1)
  else
    (data, ap ++ [if is_set then 1 else 0], 7)

/-- `_cutoff_big(data, bitlength)`: big-endian bit-order variant. -/
def cutoff_big (data : Bytes) (bitlength : Option Nat) : Bytes × Bytes × Nat :=
  match bitlength with
  | none => (data, [], 0)
  | some bl =>
    let s := (bl + 7) / 8
    let data' := data.take s
    let r := bl % 8
    if r > 0 then
      (data'.take (s - 1),
       [data'.getD (s - 1) 0 &&& (((1 <<< r) - 1) <<< (8 - r))],
       8 - r)
    else
      (data', [], 0)

/-- `_add_bit_big`: append one bit (big-endian bit order). -/
def add_bit_big (t : Bytes × Bytes × Nat) (is_set : Bool) : Bytes × Bytes × Nat :=
  let (data, ap, rem) := t
  if rem > 0 then
    (data, if is_set then setLastOr ap (1 <<< (rem - 1)) else ap, rem - 1)
  else
    (data, ap ++ [if is_set then 128 else 0], 7)

/-- Fuel-based helper for `int.bit_length`; fuel `v` suffices. -/
def bitLenAux : Nat → Nat → Nat
  | 0, _ => 0
  | fuel + 1, v => if v = 0 then 0 else bitLenAux fuel (v / 2) + 1

/-- Python `v.bit_length()` for nonnegative `v`. -/
def bitLen (v : Nat) : Nat := bitLenAux v v

/-- `find_last_1(v)`: index of the highest set bit, `-1` for `0`. -/
def find_last_1 (v : Nat) : Int :=
  if v = 0 then -1 else (bitLen v : Int) - 1

/-- Fuel-based helper for `find_first_1`'s `while v & 1 == 0` loop;
fuel `v` suffices since `v` at least halves each step. -/
def findFirst1Aux : Nat → Nat → Nat
  | 0, _ => 0
  | fuel + 1, v => if v % 2 = 0 then findFirst1Aux fuel (v / 2) + 1 else 0

/-- `find_first_1(v)`: index of the lowest set bit, `-1` for `0`. -/
def find_first_1 (v : Nat) : Int :=
  if v = 0 then -1 else (findFirst1Aux v v : Int)

/-- Length of `data` after stripping trailing zero bytes: the final value of
`i` in the loop `while i > 0 and data[i-1] == 0: i -= 1`. -/
def lastNonZeroLen (data : Bytes) : Nat :=
  (data.reverse.dropWhile (fun b => b = 0)).length

/-- The length precheck `i == 0 or (blocksize is not None and i % blocksize > 0)`
shared by the remove functions (with `0` generalized to the scheme's minimum). -/
def badLen (i0 minLen : Nat) (blocksize : Option Nat) : Bool :=
  i0 < minLen || (match blocksize with | some B => decide (i0 % B > 0) | none => false)

/-! ## padding.py : the four padding schemes -/

/-- `add_10star_padding(data, blocksize, bitlength)`. -/
def add_10star_padding (data : Bytes) (blocksize : Nat) (bitlength : Option Nat) :
    Bytes :=
  let t := cutoff_little data bitlength
  let (d, ap, _rem) := add_bit_little t true
  let extra := (d.length + ap.length) % blocksize
  if extra > 0 then
    d ++ ap ++ List.replicate (blocksize - extra) 0
  else
    d ++ ap

/-- `remove_10star_padding(data, blocksize)`.  `bits` is computed over ℤ as in
Python (`(i - 1) * 8 + b` can touch `i = 0` with `b = 8`; the value is
nonnegative on every path).  Control flow is the source's early-`raise`
structure flattened into nested if-else. -/
def remove_10star_padding (data : Bytes) (blocksize : Option Nat) :
    Except String (Bytes × Nat) :=
  if badLen data.length 1 blocksize then
    .error "Data does not satisfy 10* padding"
  else
    let i := lastNonZeroLen data
    if i = 0 then
      .error "Data does not satisfy 10* padding"
    else
      let lastByte := data.getD (i - 1) 0
      let b := (find_last_1 lastByte).toNat
      let ibd :=
        if b = 0 then
          (i - 1, 8, data.take (i - 1))
        else
          (i, b, data.take (i - 1) ++ [lastByte &&& ((1 <<< b) - 1)])
      let bits := (((ibd.1 : Int) - 1) * 8 + ibd.2.1).toNat
      match blocksize with
      | some B =>
        if (bits + 1 + 7) / 8 + B - 1 < data.length then
          .error "Data does not satisfy 10* padding"
        else
          .ok (ibd.2.2, bits)
      | none => .ok (ibd.2.2, bits)

/-- `add_10star1_padding(data, blocksize, bitlength)`. -/
def add_10star1_padding (data : Bytes) (blocksize : Nat) (bitlength : Option Nat) :
    Bytes :=
  let t := cutoff_little data bitlength
  let (d, ap, rem) := add_bit_little t true
  let extra := (d.length + ap.length) % blocksize
  if extra > 0 then
    d ++ setLastOr (ap ++ List.replicate (blocksize - extra) 0) 128
  else if rem > 0 then
    d ++ setLastOr ap 128
  else
    d ++ ap ++ List.replicate (blocksize - 1) 0 ++ [128]

/-- `remove_10star1_padding(data, blocksize)`.  Same flattening conventions
as `remove_10star_padding`. -/
def remove_10star1_padding (data : Bytes) (blocksize : Option Nat) :
    Except String (Bytes × Nat) :=
  if badLen data.length 1 blocksize then
    .error "Data does not satisfy 10*1 padding"
  else if data.getLastD 0 &&& 128 = 0 then
    .error "Data does not satisfy 10*1 padding"
  else
    let im :=
      if data.getLastD 0 = 128 then (data.length - 1, 255) else (data.length, 127)
    let i := lastNonZeroLen (data.take im.1)
    if i = 0 then
      .error "Data does not satisfy 10*1 padding"
    else
      let lastByte := data.getD (i - 1) 0
      let b := (find_last_1 (lastByte &&& im.2)).toNat
      let ibd :=
        if b = 0 then
          (i - 1, 8, data.take (i - 1))
        else
          (i, b, data.take (i - 1) ++ [lastByte &&& ((1 <<< b) - 1)])
      let bits := (((ibd.1 : Int) - 1) * 8 + ibd.2.1).toNat
      match blocksize with
      | some B =>
        if (bits + 2 + 7) / 8 + B - 1 < data.length then
          .error "Data does not satisfy 10*1 padding"
        else
          .ok (ibd.2.2, bits)
      | none => .ok (ibd.2.2, bits)

/-- `add_0110star1_padding(data, blocksize, bitlength)`. -/
def add_0110star1_padding (data : Bytes) (blocksize : Nat) (bitlength : Option Nat) :
    Bytes :=
  let t := cutoff_little data bitlength
  let t := add_bit_little t false
  let (d, ap, rem) := add_bit_little t true
  let data' := d ++ ap
  add_10star1_padding data' blocksize (some (data'.length * 8 - rem))

/-- `remove_0110star1_padding(data, blocksize)`.  The source's early-`raise`
control flow, flattened; the `b ≤ 2` branch checks the bit below the appended
`1` when that bit does not share the recovered last byte. -/
def remove_0110star1_padding (data0 : Bytes) (blocksize : Option Nat) :
    Except String (Bytes × Nat) :=
  match remove_10star1_padding data0 blocksize with
  | .error e => .error e
  | .ok (data, bits) =>
    if bits < 2 then
      .error "Data does not satisfy 0110*1 padding"
    else
      let b := if bits % 8 = 0 then 8 else bits % 8
      if data.getLastD 0 &&& (1 <<< (b - 1)) = 0 then
        .error "Data does not satisfy 0110*1 padding"
      else if b ≤ 2 ∧
          data.getD (data.length - (if b = 2 then 1 else 2)) 0 &&&
            (if b = 2 then 1 else 1 <<< 7) ≠ 0 then
        .error "Data does not satisfy 0110*1 padding"
      else
        let data' :=
          if b ≤ 2 then data.dropLast
          else data.dropLast ++ [data.getLastD 0 &&& ((1 <<< (b - 2)) - 1)]
        let bits' := bits - 2
        match blocksize with
        | some B =>
          if (bits' + 5 + 7) / 8 + B - 1 < data0.length then
            .error "Data does not satisfy 0110*1 padding"
          else
            .ok (data', bits')
        | none => .ok (data', bits')

/-- Python `n.to_bytes(8, byteorder='big')`: `none` models the
`OverflowError` raised when `n ≥ 2^64`. -/
def toBytesBE8 (n : Nat) : Option Bytes :=
  if n < 2 ^ 64 then
    some ((List.range 8).map fun i => (n >>> (8 * (7 - i))) &&& 255)
  else
    none

/-- Python `int.from_bytes(l, byteorder='big')`. -/
def fromBytesBE (l : Bytes) : Nat := l.foldl (fun acc b => acc * 256 + b) 0

/-- `add_sha2_padding(data, blocksize, bitlength)`; `none` when the 8-byte
big-endian length field overflows (Python raises `OverflowError`). -/
def add_sha2_padding (data : Bytes) (blocksize : Nat) (bitlength : Option Nat) :
    Option Bytes :=
  let t := cutoff_big data bitlength
  let bl := bitlength.getD (t.1.length * 8)
  let (d, ap, _rem) := add_bit_big t true
  let extra := (d.length + ap.length + 8) % blocksize
  let ap := if extra > 0 then ap ++ List.replicate (blocksize - extra) 0 else ap
  match toBytesBE8 bl with
  | none => none
  | some lenBytes => some (d ++ ap ++ lenBytes)

/-- `remove_sha2_padding(data, blocksize)`.  `length_` is computed over ℤ as
in Python. -/
def remove_sha2_padding (data : Bytes) (blocksize : Option Nat) :
    Except String (Bytes × Nat) :=
  if badLen data.length 9 blocksize then
    .error "Data does not satisfy SHA-2 padding"
  else
    let len := fromBytesBE (data.drop (data.length - 8))
    let i := lastNonZeroLen (data.take (data.length - 8))
    if i = 0 then
      .error "Data does not satisfy SHA-2 padding"
    else
      let byte := data.getD (i - 1) 0
      let b := (find_first_1 byte).toNat
      let ibr :=
        if b = 7 then
          (i - 1, 0, data.take (i - 1))
        else
          (i, b + 1,
           data.take (i - 1) ++ [byte &&& (((1 <<< (8 - (b + 1))) - 1) <<< (b + 1))])
      let length_ : Int := ((ibr.1 : Int) - 1) * 8 + (8 - (ibr.2.1 : Int))
      if length_ ≠ (len : Int) then
        .error "Data does not satisfy SHA-2 padding"
      else
        match blocksize with
        | some B =>
          if (len + 8) / 8 + 8 + B - 1 < data.length then
            .error "Data does not satisfy SHA-2 padding"
          else
            .ok (ibr.2.2, len)
        | none => .ok (ibr.2.2, len)

/-! ## Specification-side definitions for the padding round-trip claims.

`specTruncLittle`/`specTruncBig` formalize the spec's phrase "data
truncated/masked to its first `L` bits in the scheme's bit convention,
using the minimal number of bytes". -/

/-- Modelled from the spec: first `L` bits of `data` in little-endian bit
order, minimal number of bytes. -/
def specTruncLittle (data : Bytes) (L : Nat) : Bytes :=
  if L % 8 = 0 then data.take (L / 8)
  else data.take (L / 8) ++ [data.getD (L / 8) 0 &&& ((1 <<< (L % 8)) - 1)]

/-- Modelled from the spec: first `L` bits of `data` in big-endian bit
order, minimal number of bytes. -/
def specTruncBig (data : Bytes) (L : Nat) : Bytes :=
  if L % 8 = 0 then data.take (L / 8)
  else data.take (L / 8) ++
    [data.getD (L / 8) 0 &&& (((1 <<< (L % 8)) - 1) <<< (8 - L % 8))]

/-! ## Arithmetic helper lemmas -/

theorem lor_two_pow_of_lt {x r : Nat} (h : x < 2 ^ r) : x ||| 2 ^ r = x + 2 ^ r := by
  apply Nat.eq_of_testBit_eq
  intro i
  rw [Nat.testBit_lor, show x + 2 ^ r = 2 ^ r * 1 + x by ring,
    Nat.testBit_mul_pow_two_add _ h]
  rcases lt_trichotomy i r with hi | hi | hi
  · have h2 : (2 ^ r).testBit i = false := by
      simp [Nat.testBit_two_pow]; omega
    simp [h2, hi]
  · subst hi
    have hx : x.testBit i = false := Nat.testBit_lt_two_pow h
    simp [hx, Nat.testBit_two_pow]
  · have hx : x.testBit i = false := by
      apply Nat.testBit_lt_two_pow
      exact h.trans_le (Nat.pow_le_pow_right (by norm_num) hi.le)
    have h2 : (2 ^ r).testBit i = false := by
      simp [Nat.testBit_two_pow]; omega
    have hir : ¬ i < r := by omega
    have hir2 : (1 : Nat) < 2 ^ (i - r) := by
      calc (1 : Nat) < 2 ^ 1 := by norm_num
      _ ≤ 2 ^ (i - r) := Nat.pow_le_pow_right (by norm_num) (by omega)
    simp [hx, h2, hir, Nat.testBit_lt_two_pow hir2]

theorem and_mask_eq_mod (y r : Nat) : y &&& ((1 <<< r) - 1) = y % 2 ^ r := by
  rw [Nat.one_shiftLeft, Nat.and_pow_two_sub_one_eq_mod]

theorem bitLenAux_eq : ∀ fuel v, v ≤ fuel →
    bitLenAux fuel v = if v = 0 then 0 else Nat.log2 v + 1 := by
  intro fuel
  induction fuel with
  | zero => intro v hv; interval_cases v; simp [bitLenAux]
  | succ fuel ih =>
    intro v hv
    by_cases h0 : v = 0
    · simp [bitLenAux, h0]
    · rw [bitLenAux, if_neg h0, ih (v / 2) (by omega)]
      by_cases h1 : v / 2 = 0
      · have : v = 1 := by omega
        subst this
        simp [Nat.log2]
      · rw [if_neg h1, if_neg h0]
        have h2 : 2 ≤ v := by omega
        conv_rhs => rw [Nat.log2]
        rw [if_pos h2]

theorem bitLen_eq (v : Nat) (h : v ≠ 0) : bitLen v = Nat.log2 v + 1 := by
  rw [bitLen, bitLenAux_eq v v le_rfl, if_neg h]

theorem find_last_1_add_two_pow {x r : Nat} (h : x < 2 ^ r) :
    find_last_1 (x + 2 ^ r) = (r : Int) := by
  have hpos : x + 2 ^ r ≠ 0 := by positivity
  rw [find_last_1, if_neg hpos, bitLen_eq _ hpos, Nat.log2_eq_log_two]
  have hlog : Nat.log 2 (x + 2 ^ r) = r := by
    apply Nat.log_eq_of_pow_le_of_lt_pow (by omega)
    have : 2 ^ (r + 1) = 2 ^ r + 2 ^ r := by ring
    omega
  rw [hlog]
  push_cast
  ring

theorem find_last_1_one : find_last_1 1 = 0 := by decide

/-- The number of fill-up zero bytes that make `n` a multiple of `B`. -/
theorem fill_mod (B n : Nat) (hB : 1 ≤ B) : (n + (B - n % B) % B) % B = 0 := by
  rcases Nat.eq_zero_or_pos (n % B) with h | h
  · have h0 : (B - n % B) % B = 0 := by
      rw [h, Nat.sub_zero, Nat.mod_self]
    rw [h0, Nat.add_zero]
    exact h
  · have h1 : n % B < B := Nat.mod_lt _ (by omega)
    have h2 : (B - n % B) % B = B - n % B := by
      apply Nat.mod_eq_of_lt; omega
    obtain ⟨q, hq⟩ : ∃ q, B * q + n % B = n := ⟨n / B, Nat.div_add_mod n B⟩
    have hq2 : B * (q + 1) = B * q + B := by ring
    rw [h2, show n + (B - n % B) = B * (q + 1) by omega]
    simp [Nat.mul_mod_right]

theorem fill_lt (B n : Nat) (hB : 1 ≤ B) : (B - n % B) % B < B :=
  Nat.mod_lt _ (by omega)

/-! ## List helper lemmas -/

theorem lastNonZeroLen_append_replicate (xs : Bytes) (k : Nat) :
    lastNonZeroLen (xs ++ List.replicate k 0) = lastNonZeroLen xs := by
  rw [lastNonZeroLen, lastNonZeroLen, List.reverse_append, List.reverse_replicate,
    List.dropWhile_append, List.dropWhile_replicate]
  simp

theorem lastNonZeroLen_concat_ne (xs : Bytes) (y : Nat) (hy : y ≠ 0) :
    lastNonZeroLen (xs ++ [y]) = xs.length + 1 := by
  rw [lastNonZeroLen, List.reverse_append]
  simp only [List.reverse_singleton, List.singleton_append, List.dropWhile_cons]
  rw [if_neg (by simp [hy])]
  simp

theorem lastNonZeroLen_le (xs : Bytes) : lastNonZeroLen xs ≤ xs.length := by
  rw [lastNonZeroLen]
  calc (xs.reverse.dropWhile (fun b => b = 0)).length
      ≤ xs.reverse.length := (List.dropWhile_sublist (fun b => decide (b = 0))).length_le
    _ = xs.length := List.length_reverse xs

theorem getD_take_succ (l : Bytes) (n d : Nat) : (l.take (n + 1)).getD n d = l.getD n d := by
  rw [List.getD_eq_getElem?_getD, List.getD_eq_getElem?_getD, List.getElem?_take]
  simp

/-! ## Characterization of the little-endian "core":
the first `L` bits of `data` with one `1` bit appended, minimal bytes. -/

/-- First `L` bits of `data` (little-endian) followed by one set bit,
as a minimal byte string: the common core of 10* and 10*1 padding. -/
def padCoreL (data : Bytes) (L : Nat) : Bytes :=
  data.take (L / 8) ++ [data.getD (L / 8) 0 % 2 ^ (L % 8) + 2 ^ (L % 8)]

theorem take_length_of_le {l : Bytes} {n : Nat} (h : n ≤ l.length) :
    (l.take n).length = n := by
  simp [List.length_take]; omega

theorem div8_le_of_le {L n : Nat} (h : L ≤ 8 * n) : L / 8 ≤ n := by omega

theorem padCoreL_length {data : Bytes} {L : Nat} (hL : L ≤ 8 * data.length) :
    (padCoreL data L).length = L / 8 + 1 := by
  rw [padCoreL, List.length_append, take_length_of_le (div8_le_of_le hL)]
  simp

theorem padCoreL_last_pos (data : Bytes) (L : Nat) :
    data.getD (L / 8) 0 % 2 ^ (L % 8) + 2 ^ (L % 8) ≠ 0 := by
  positivity

theorem add_bit_cutoff_little (data : Bytes) (L : Nat) (hL : L ≤ 8 * data.length) :
    add_bit_little (cutoff_little data (some L)) true =
      (data.take (L / 8), [data.getD (L / 8) 0 % 2 ^ (L % 8) + 2 ^ (L % 8)],
       7 - L % 8) := by
  by_cases hr : L % 8 = 0
  · have hs : (L + 7) / 8 = L / 8 := by omega
    rw [cutoff_little]
    simp only [hs, hr, gt_iff_lt, Nat.lt_irrefl, if_false]
    rw [add_bit_little]
    simp [Nat.mod_one]
  · have hr' : 0 < L % 8 := Nat.pos_of_ne_zero hr
    have hs : (L + 7) / 8 = L / 8 + 1 := by omega
    have hx : data.getD (L / 8) 0 % 2 ^ (L % 8) < 2 ^ (L % 8) :=
      Nat.mod_lt _ (by positivity)
    have h2 : (8 : Nat) - (8 - L % 8) = L % 8 := by omega
    have h3 : 8 - L % 8 - 1 = 7 - L % 8 := by omega
    rw [cutoff_little]
    simp only [hs, if_pos hr']
    rw [add_bit_little]
    simp only [if_pos (show 8 - L % 8 > 0 by omega), if_true, setLastOr,
      List.dropLast_single, List.nil_append, Nat.add_sub_cancel]
    rw [List.take_take, min_eq_left (show L / 8 ≤ L / 8 + 1 by omega),
      getD_take_succ, and_mask_eq_mod, h2, h3]
    have hLast : ([data.getD (L / 8) 0 % 2 ^ (L % 8)].getLastD 0) =
        data.getD (L / 8) 0 % 2 ^ (L % 8) := rfl
    rw [hLast, Nat.one_shiftLeft, lor_two_pow_of_lt hx]

/-- `add_10star_padding` output: the core followed by fill-up zero bytes. -/
theorem add_10star_eq (data : Bytes) (B L : Nat) (hB : 1 ≤ B)
    (hL : L ≤ 8 * data.length) :
    add_10star_padding data B (some L) =
      padCoreL data L ++ List.replicate ((B - (L / 8 + 1) % B) % B) 0 := by
  rw [add_10star_padding, add_bit_cutoff_little data L hL]
  simp only [List.length_singleton, take_length_of_le (div8_le_of_le hL)]
  by_cases he : (L / 8 + 1) % B = 0
  · rw [if_neg (by omega), he]
    simp [padCoreL, Nat.mod_self]
  · rw [if_pos (by omega)]
    have hlt : (L / 8 + 1) % B < B := Nat.mod_lt _ (by omega)
    rw [Nat.mod_eq_of_lt (by omega : B - (L / 8 + 1) % B < B)]
    simp [padCoreL]

/-- `add_10star1_padding` output, by the three branches of the source. -/
theorem add_10star1_eq (data : Bytes) (B L : Nat) (hB : 1 ≤ B)
    (hL : L ≤ 8 * data.length) :
    add_10star1_padding data B (some L) =
      if (L / 8 + 1) % B ≠ 0 then
        padCoreL data L ++
          List.replicate ((B - (L / 8 + 1) % B) % B - 1) 0 ++ [128]
      else if L % 8 ≠ 7 then
        data.take (L / 8) ++
          [data.getD (L / 8) 0 % 2 ^ (L % 8) + 2 ^ (L % 8) + 128]
      else
        padCoreL data L ++ List.replicate (B - 1) 0 ++ [128] := by
  have hx : data.getD (L / 8) 0 % 2 ^ (L % 8) < 2 ^ (L % 8) :=
    Nat.mod_lt _ (by positivity)
  rw [add_10star1_padding, add_bit_cutoff_little data L hL]
  simp only [List.length_singleton, take_length_of_le (div8_le_of_le hL)]
  by_cases he : (L / 8 + 1) % B = 0
  · rw [if_neg (show ¬ (L / 8 + 1) % B > 0 by omega),
      if_neg (show ¬ (L / 8 + 1) % B ≠ 0 by simpa using he)]
    by_cases h7 : L % 8 = 7
    · rw [if_neg (show ¬ 7 - L % 8 > 0 by omega),
        if_neg (show ¬ L % 8 ≠ 7 by simpa using h7), padCoreL]
    · rw [if_pos (show 7 - L % 8 > 0 by omega), if_pos h7, setLastOr]
      have hc : data.getD (L / 8) 0 % 2 ^ (L % 8) + 2 ^ (L % 8) < 2 ^ 7 := by
        have h2 : 2 ^ (L % 8 + 1) ≤ 2 ^ 7 :=
          Nat.pow_le_pow_right (by norm_num) (by omega)
        have h3 : (2 : Nat) ^ (L % 8 + 1) = 2 ^ (L % 8) + 2 ^ (L % 8) := by ring
        omega
      simp only [List.dropLast_single, List.nil_append]
      have hLast : ([data.getD (L / 8) 0 % 2 ^ (L % 8) + 2 ^ (L % 8)].getLastD 0) =
          data.getD (L / 8) 0 % 2 ^ (L % 8) + 2 ^ (L % 8) := rfl
      rw [hLast, show (128 : Nat) = 2 ^ 7 by norm_num, lor_two_pow_of_lt hc]
  · have hlt : (L / 8 + 1) % B < B := Nat.mod_lt _ (by omega)
    have hk : (B - (L / 8 + 1) % B) % B = B - (L / 8 + 1) % B :=
      Nat.mod_eq_of_lt (by omega)
    rw [if_pos (show (L / 8 + 1) % B > 0 by omega),
      if_pos (show (L / 8 + 1) % B ≠ 0 from he), setLastOr, hk]
    obtain ⟨k, hk1⟩ : ∃ k, B - (L / 8 + 1) % B = k + 1 :=
      ⟨B - (L / 8 + 1) % B - 1, by omega⟩
    rw [hk1, List.replicate_succ']
    rw [show [data.getD (L / 8) 0 % 2 ^ (L % 8) + 2 ^ (L % 8)] ++
        (List.replicate k 0 ++ [0]) =
        ([data.getD (L / 8) 0 % 2 ^ (L % 8) + 2 ^ (L % 8)] ++
          List.replicate k 0) ++ [0] by simp]
    rw [List.dropLast_concat, List.getLastD_concat, padCoreL]
    simp

/-- Round trip for the 10* scheme with explicit bit length. -/
theorem remove_add_10star (data : Bytes) (B L : Nat) (hB : 1 ≤ B)
    (hL : L ≤ 8 * data.length) (bs : Option Nat) (hbs : bs = none ∨ bs = some B) :
    remove_10star_padding (add_10star_padding data B (some L)) bs =
      .ok (specTruncLittle data L, L) := by
  have hq : L / 8 ≤ data.length := div8_le_of_le hL
  have hqlen : (data.take (L / 8)).length = L / 8 := take_length_of_le hq
  rw [add_10star_eq data B L hB hL, padCoreL]
  obtain ⟨x, hxdef⟩ : ∃ v, data.getD (L / 8) 0 % 2 ^ (L % 8) = v := ⟨_, rfl⟩
  have hx : x < 2 ^ (L % 8) := hxdef ▸ Nat.mod_lt _ (by positivity)
  rw [hxdef]
  obtain ⟨y, hydef⟩ : ∃ v, x + 2 ^ (L % 8) = v := ⟨_, rfl⟩
  have hy : y ≠ 0 := by omega
  rw [hydef]
  obtain ⟨k, hkdef⟩ : ∃ v, (B - (L / 8 + 1) % B) % B = v := ⟨_, rfl⟩
  have hkB : k < B := hkdef ▸ Nat.mod_lt _ (by omega)
  have hmod : (L / 8 + 1 + k) % B = 0 := hkdef ▸ fill_mod B (L / 8 + 1) hB
  rw [hkdef]
  have hP : ((data.take (L / 8) ++ [y]) ++ List.replicate k 0).length
      = L / 8 + 1 + k := by simp [hqlen]; try omega
  have hi : lastNonZeroLen ((data.take (L / 8) ++ [y]) ++ List.replicate k 0)
      = L / 8 + 1 := by
    rw [lastNonZeroLen_append_replicate, lastNonZeroLen_concat_ne _ _ hy, hqlen]
  have hgd : ((data.take (L / 8) ++ [y]) ++ List.replicate k 0).getD (L / 8) 0
      = y := by
    rw [List.getD_append _ _ _ _ (by simp [hqlen]),
      List.getD_append_right _ _ _ _ hqlen.le]
    simp [hqlen]
  have htake : ((data.take (L / 8) ++ [y]) ++ List.replicate k 0).take (L / 8)
      = data.take (L / 8) := by
    rw [List.take_append_of_le_length (by simp [hqlen]),
      List.take_append_of_le_length hqlen.ge, List.take_take]
    simp
  have hfl : find_last_1 y = ((L % 8 : Nat) : Int) := by
    rw [← hydef]; exact find_last_1_add_two_pow hx
  have hbad : badLen (L / 8 + 1 + k) 1 bs = false := by
    rcases hbs with rfl | rfl
    · simp [badLen]
    · simp [badLen, hmod]
  simp only [remove_10star_padding, hi, hP]
  rw [if_neg (by simp [hbad]), if_neg (show ¬ L / 8 + 1 = 0 by omega),
    Nat.add_sub_cancel, htake, hgd, hfl]
  simp only [Int.toNat_natCast]
  have hmask : y &&& ((1 <<< (L % 8)) - 1) = x := by
    rw [and_mask_eq_mod, ← hydef, Nat.add_mod_right, Nat.mod_eq_of_lt hx]
  have hres0 : L % 8 = 0 → specTruncLittle data L = data.take (L / 8) := by
    intro hr; rw [specTruncLittle, if_pos hr]
  have hres1 : L % 8 ≠ 0 → specTruncLittle data L = data.take (L / 8) ++ [x] := by
    intro hr; rw [specTruncLittle, if_neg hr, and_mask_eq_mod, hxdef]
  rcases hbs with rfl | rfl
  · by_cases hr : L % 8 = 0
    · rw [if_pos hr]
      simp only [Except.ok.injEq, Prod.mk.injEq]
      exact ⟨(hres0 hr).symm, by omega⟩
    · rw [if_neg hr, hmask]
      simp only [Except.ok.injEq, Prod.mk.injEq]
      exact ⟨(hres1 hr).symm, by omega⟩
  · by_cases hr : L % 8 = 0
    · rw [if_pos hr]
      simp only [Except.ok.injEq, Prod.mk.injEq]
      split
      · exfalso; omega
      · simp only [Except.ok.injEq, Prod.mk.injEq]
        exact ⟨(hres0 hr).symm, by omega⟩
    · rw [if_neg hr, hmask]
      simp only [Except.ok.injEq, Prod.mk.injEq]
      split
      · exfalso; omega
      · simp only [Except.ok.injEq, Prod.mk.injEq]
        exact ⟨(hres1 hr).symm, by omega⟩

/-! ## Shared shape lemmas for the remove-side analysis -/

theorem getD_concat (front : Bytes) (y n : Nat) (hn : front.length = n) :
    (front ++ [y]).getD n 0 = y := by
  rw [List.getD_append_right _ _ _ _ hn.le]
  simp [hn]

theorem take_concat (front : Bytes) (y : Nat) (n : Nat) (hn : front.length = n) :
    (front ++ [y]).take n = front := by
  rw [← hn, List.take_append_of_le_length le_rfl, List.take_length]

theorem getD_core (front : Bytes) (y : Nat) (rest : Bytes) (n : Nat)
    (hn : front.length = n) :
    ((front ++ [y]) ++ rest).getD n 0 = y := by
  rw [List.getD_append _ _ _ _ (by simp [hn]), getD_concat _ _ _ hn]

theorem take_core (front : Bytes) (y : Nat) (rest : Bytes) (n : Nat)
    (hn : front.length = n) :
    ((front ++ [y]) ++ rest).take n = front := by
  rw [List.take_append_of_le_length (by simp [hn]), take_concat _ _ _ hn]

theorem lastNonZeroLen_core (front : Bytes) (y k n : Nat) (hy : y ≠ 0)
    (hn : front.length = n) :
    lastNonZeroLen ((front ++ [y]) ++ List.replicate k 0) = n + 1 := by
  rw [lastNonZeroLen_append_replicate, lastNonZeroLen_concat_ne _ _ hy, hn]

theorem and_byte_mask {v : Nat} (h : v < 256) : v &&& 255 = v := by
  rw [show (255 : Nat) = 2 ^ 8 - 1 by norm_num, Nat.and_pow_two_sub_one_eq_mod,
    Nat.mod_eq_of_lt h]

theorem and_127_eq_mod (v : Nat) : v &&& 127 = v % 2 ^ 7 := by
  rw [show (127 : Nat) = 2 ^ 7 - 1 by norm_num, Nat.and_pow_two_sub_one_eq_mod]

/-- Round trip for the 10*1 scheme with explicit bit length. -/
theorem remove_add_10star1 (data : Bytes) (B L : Nat) (hB : 1 ≤ B)
    (hL : L ≤ 8 * data.length) (bs : Option Nat) (hbs : bs = none ∨ bs = some B) :
    remove_10star1_padding (add_10star1_padding data B (some L)) bs =
      .ok (specTruncLittle data L, L) := by
  have hq : L / 8 ≤ data.length := div8_le_of_le hL
  have hqlen : (data.take (L / 8)).length = L / 8 := take_length_of_le hq
  rw [add_10star1_eq data B L hB hL, padCoreL]
  obtain ⟨x, hxdef⟩ : ∃ v, data.getD (L / 8) 0 % 2 ^ (L % 8) = v := ⟨_, rfl⟩
  have hx : x < 2 ^ (L % 8) := hxdef ▸ Nat.mod_lt _ (by positivity)
  rw [hxdef]
  obtain ⟨y, hydef⟩ : ∃ v, x + 2 ^ (L % 8) = v := ⟨_, rfl⟩
  rw [hydef]
  have h27 : (2 : Nat) ^ (L % 8) ≤ 2 ^ 7 :=
    Nat.pow_le_pow_right (by norm_num) (by omega)
  have hy : y ≠ 0 := by omega
  have hy256 : y < 256 := by omega
  have hfl : find_last_1 y = ((L % 8 : Nat) : Int) := by
    rw [← hydef]; exact find_last_1_add_two_pow hx
  have hmaskx : y % 2 ^ (L % 8) = x := by
    rw [← hydef, Nat.add_mod_right, Nat.mod_eq_of_lt hx]
  have hres0 : L % 8 = 0 → specTruncLittle data L = data.take (L / 8) := by
    intro hr; rw [specTruncLittle, if_pos hr]
  have hres1 : L % 8 ≠ 0 → specTruncLittle data L = data.take (L / 8) ++ [x] := by
    intro hr; rw [specTruncLittle, if_neg hr, and_mask_eq_mod, hxdef]
  by_cases he : (L / 8 + 1) % B = 0
  · rw [if_neg (show ¬ (L / 8 + 1) % B ≠ 0 by simpa using he)]
    by_cases h7 : L % 8 = 7
    · -- extra = 0, rem = 0 (L % 8 = 7): core ++ (B-1) zeros ++ [0x80]
      rw [if_neg (show ¬ L % 8 ≠ 7 by simpa using h7)]
      have hClen : ((data.take (L / 8) ++ [y]) ++ List.replicate (B - 1) 0).length
          = L / 8 + B := by simp [hqlen]; try omega
      have hPlen :
          ((((data.take (L / 8) ++ [y]) ++ List.replicate (B - 1) 0)) ++ [128]).length
          = L / 8 + 1 + B := by simp [hqlen]; try omega
      have hmod : (L / 8 + 1 + B) % B = 0 := by
        rw [show L / 8 + 1 + B = (L / 8 + 1) + B by ring, Nat.add_mod_right, he]
      have hbad : badLen (L / 8 + 1 + B) 1 bs = false := by
        rcases hbs with rfl | rfl
        · simp [badLen]
        · simp [badLen, hmod]
      have hlast :
          ((((data.take (L / 8) ++ [y]) ++ List.replicate (B - 1) 0)) ++ [128]).getLastD 0
          = 128 := List.getLastD_concat _ _ _
      have htk :
          ((((data.take (L / 8) ++ [y]) ++ List.replicate (B - 1) 0)) ++ [128]).take
            (L / 8 + 1 + B - 1)
          = (data.take (L / 8) ++ [y]) ++ List.replicate (B - 1) 0 := by
        rw [show L / 8 + 1 + B - 1 = L / 8 + B by omega]
        exact take_concat _ _ _ hClen
      have hi : lastNonZeroLen ((data.take (L / 8) ++ [y]) ++ List.replicate (B - 1) 0)
          = L / 8 + 1 := lastNonZeroLen_core _ _ _ _ hy hqlen
      have hgd :
          ((((data.take (L / 8) ++ [y]) ++ List.replicate (B - 1) 0)) ++ [128]).getD
            (L / 8) 0 = y := by
        rw [List.getD_append _ _ _ _ (by simp [hqlen]; try omega), getD_core _ _ _ _ hqlen]
      have htakeq :
          ((((data.take (L / 8) ++ [y]) ++ List.replicate (B - 1) 0)) ++ [128]).take
            (L / 8) = data.take (L / 8) := by
        rw [List.take_append_of_le_length (by simp [hqlen]; try omega),
          take_core _ _ _ _ hqlen]
      simp only [remove_10star1_padding, hPlen, hlast, hbad, Bool.false_eq_true,
        if_false, if_true, htk, hi, Nat.add_sub_cancel, hgd, and_byte_mask hy256,
        hfl, Int.toNat_natCast, htakeq, h7]
      rw [if_neg (show ¬ (128 : Nat) &&& 128 = 0 by decide),
        if_neg (show ¬ L / 8 + 1 = 0 by omega)]
      simp only [show ((7 : Nat) = 0) = False from by simp, if_false]
      have hmask7 : y &&& ((1 <<< 7) - 1) = x := by
        rw [and_mask_eq_mod, show ((2 : Nat) ^ 7) = 2 ^ (L % 8) by rw [h7], hmaskx]
      rw [hmask7]
      rcases hbs with rfl | rfl
      · simp only [Except.ok.injEq, Prod.mk.injEq]
        exact ⟨(hres1 (by omega)).symm, by omega⟩
      · simp only [Except.ok.injEq, Prod.mk.injEq]
        split
        · exfalso; omega
        · simp only [Except.ok.injEq, Prod.mk.injEq]
          exact ⟨(hres1 (by omega)).symm, by omega⟩
    · -- extra = 0, rem > 0 (L % 8 ≤ 6): the 0x80 bit shares the core byte
      rw [if_pos (show L % 8 ≠ 7 from h7)]
      have hy128 : y < 128 := by
        have h26 : (2 : Nat) ^ (L % 8 + 1) ≤ 2 ^ 7 :=
          Nat.pow_le_pow_right (by norm_num) (by omega)
        have hrr : (2 : Nat) ^ (L % 8 + 1) = 2 ^ (L % 8) + 2 ^ (L % 8) := by ring
        omega
      have hPlen : (data.take (L / 8) ++ [y + 128]).length = L / 8 + 1 := by
        simp [hqlen]
      have hbad : badLen (L / 8 + 1) 1 bs = false := by
        rcases hbs with rfl | rfl
        · simp [badLen]
        · simp [badLen, he]
      have hlast : (data.take (L / 8) ++ [y + 128]).getLastD 0 = y + 128 :=
        List.getLastD_concat _ _ _
      have htb : (y + 128).testBit 7 = true := by
        rw [show y + 128 = 2 ^ 7 * 1 + y by ring,
          Nat.testBit_mul_pow_two_add 1 hy128 7]
        simp
      have hand : (y + 128) &&& 128 = 128 := by
        have h1 : (y + 128) &&& 2 ^ 7 = 2 ^ 7 := by
          rw [Nat.and_two_pow, htb]; simp
        simpa using h1
      have htk : (data.take (L / 8) ++ [y + 128]).take (L / 8 + 1)
          = data.take (L / 8) ++ [y + 128] :=
        List.take_of_length_le hPlen.le
      have hi : lastNonZeroLen (data.take (L / 8) ++ [y + 128]) = L / 8 + 1 := by
        rw [lastNonZeroLen_concat_ne _ _ (by omega), hqlen]
      have hgd : (data.take (L / 8) ++ [y + 128]).getD (L / 8) 0 = y + 128 :=
        getD_concat _ _ _ hqlen
      have hmask127 : (y + 128) &&& 127 = y := by
        rw [and_127_eq_mod, show (128 : Nat) = 2 ^ 7 by norm_num,
          Nat.add_mod_right, Nat.mod_eq_of_lt (show y < 2 ^ 7 by omega)]
      have htakeq : (data.take (L / 8) ++ [y + 128]).take (L / 8)
          = data.take (L / 8) := take_concat _ _ _ hqlen
      simp only [remove_10star1_padding, hPlen, hlast, hbad, Bool.false_eq_true,
        if_false, if_true, hand]
      rw [if_neg (show ¬ (128 : Nat) = 0 by decide),
        if_neg (show ¬ y + 128 = 128 by omega)]
      simp only [htk, hi, Nat.add_sub_cancel, hgd, hmask127, hfl,
        Int.toNat_natCast, htakeq]
      rw [if_neg (show ¬ L / 8 + 1 = 0 by omega)]
      by_cases hr : L % 8 = 0
      · rw [if_pos hr]
        rcases hbs with rfl | rfl
        · simp only [Except.ok.injEq, Prod.mk.injEq]
          exact ⟨(hres0 hr).symm, by omega⟩
        · simp only [Except.ok.injEq, Prod.mk.injEq]
          split
          · exfalso; omega
          · simp only [Except.ok.injEq, Prod.mk.injEq]
            exact ⟨(hres0 hr).symm, by omega⟩
      · rw [if_neg hr]
        have hmaskr : (y + 128) &&& ((1 <<< (L % 8)) - 1) = x := by
          rw [and_mask_eq_mod,
            show (128 : Nat) = 2 ^ (L % 8) * 2 ^ (7 - L % 8) by
              rw [← pow_add, show L % 8 + (7 - L % 8) = 7 by omega]; norm_num,
            Nat.add_mul_mod_self_left, hmaskx]
        rw [hmaskr]
        rcases hbs with rfl | rfl
        · simp only [Except.ok.injEq, Prod.mk.injEq]
          exact ⟨(hres1 hr).symm, by omega⟩
        · simp only [Except.ok.injEq, Prod.mk.injEq]
          split
          · exfalso; omega
          · simp only [Except.ok.injEq, Prod.mk.injEq]
            exact ⟨(hres1 hr).symm, by omega⟩
  · -- extra > 0: zero fill then 0x80 in the last fill byte
    rw [if_pos (show (L / 8 + 1) % B ≠ 0 from he)]
    have hee : 0 < (L / 8 + 1) % B := Nat.pos_of_ne_zero he
    have helt : (L / 8 + 1) % B < B := Nat.mod_lt _ (by omega)
    obtain ⟨k, hkdef⟩ : ∃ v, (B - (L / 8 + 1) % B) % B = v := ⟨_, rfl⟩
    have hkeq : k = B - (L / 8 + 1) % B := by
      rw [← hkdef, Nat.mod_eq_of_lt (by omega)]
    have hk1 : 1 ≤ k := by omega
    have hkB : k < B := by omega
    have hmod : (L / 8 + 1 + k) % B = 0 := hkdef ▸ fill_mod B (L / 8 + 1) hB
    rw [hkdef]
    have hClen : ((data.take (L / 8) ++ [y]) ++ List.replicate (k - 1) 0).length
        = L / 8 + k := by simp [hqlen]; try omega
    have hPlen :
        ((((data.take (L / 8) ++ [y]) ++ List.replicate (k - 1) 0)) ++ [128]).length
        = L / 8 + 1 + k := by simp [hqlen]; try omega
    have hbad : badLen (L / 8 + 1 + k) 1 bs = false := by
      rcases hbs with rfl | rfl
      · simp [badLen]
      · simp [badLen, hmod]
    have hlast :
        ((((data.take (L / 8) ++ [y]) ++ List.replicate (k - 1) 0)) ++ [128]).getLastD 0
        = 128 := List.getLastD_concat _ _ _
    have htk :
        ((((data.take (L / 8) ++ [y]) ++ List.replicate (k - 1) 0)) ++ [128]).take
          (L / 8 + 1 + k - 1)
        = (data.take (L / 8) ++ [y]) ++ List.replicate (k - 1) 0 := by
      rw [show L / 8 + 1 + k - 1 = L / 8 + k by omega]
      exact take_concat _ _ _ hClen
    have hi : lastNonZeroLen ((data.take (L / 8) ++ [y]) ++ List.replicate (k - 1) 0)
        = L / 8 + 1 := lastNonZeroLen_core _ _ _ _ hy hqlen
    have hgd :
        ((((data.take (L / 8) ++ [y]) ++ List.replicate (k - 1) 0)) ++ [128]).getD
          (L / 8) 0 = y := by
      rw [List.getD_append _ _ _ _ (by simp [hqlen]; try omega), getD_core _ _ _ _ hqlen]
    have htakeq :
        ((((data.take (L / 8) ++ [y]) ++ List.replicate (k - 1) 0)) ++ [128]).take
          (L / 8) = data.take (L / 8) := by
      rw [List.take_append_of_le_length (by simp [hqlen]; try omega),
        take_core _ _ _ _ hqlen]
    simp only [remove_10star1_padding, hPlen, hlast, hbad, Bool.false_eq_true,
      if_false, if_true, htk, hi, Nat.add_sub_cancel, hgd, and_byte_mask hy256,
      hfl, Int.toNat_natCast, htakeq]
    rw [if_neg (show ¬ (128 : Nat) &&& 128 = 0 by decide),
      if_neg (show ¬ L / 8 + 1 = 0 by omega)]
    by_cases hr : L % 8 = 0
    · rw [if_pos hr]
      rcases hbs with rfl | rfl
      · simp only [Except.ok.injEq, Prod.mk.injEq]
        exact ⟨(hres0 hr).symm, by omega⟩
      · simp only [Except.ok.injEq, Prod.mk.injEq]
        split
        · exfalso; omega
        · simp only [Except.ok.injEq, Prod.mk.injEq]
          exact ⟨(hres0 hr).symm, by omega⟩
    · rw [if_neg hr]
      have hmaskr : y &&& ((1 <<< (L % 8)) - 1) = x := by
        rw [and_mask_eq_mod, hmaskx]
      rw [hmaskr]
      rcases hbs with rfl | rfl
      · simp only [Except.ok.injEq, Prod.mk.injEq]
        exact ⟨(hres1 hr).symm, by omega⟩
      · simp only [Except.ok.injEq, Prod.mk.injEq]
        split
        · exfalso; omega
        · simp only [Except.ok.injEq, Prod.mk.injEq]
          exact ⟨(hres1 hr).symm, by omega⟩

theorem mod_add_two_pow_mul {x r : Nat} (c : Nat) (hx : x < 2 ^ r) :
    (x + 2 ^ r * c) % 2 ^ r = x := by
  rw [Nat.add_mul_mod_self_left, Nat.mod_eq_of_lt hx]

/-- Length of the 10*1 padded string: at most `L/8 + B` fill-up bytes, except
in the full-extra-block branch (`L % 8 = 7` with the core an exact multiple of
the blocksize). -/
theorem add_10star1_len_le (data : Bytes) (B L : Nat) (hB : 1 ≤ B)
    (hL : L ≤ 8 * data.length) :
    (add_10star1_padding data B (some L)).length ≤ L / 8 + B ∨
    (L % 8 = 7 ∧ (add_10star1_padding data B (some L)).length ≤ L / 8 + 1 + B) := by
  have hq : L / 8 ≤ data.length := div8_le_of_le hL
  have hqlen : (data.take (L / 8)).length = L / 8 := take_length_of_le hq
  rw [add_10star1_eq data B L hB hL]
  by_cases he : (L / 8 + 1) % B = 0
  · rw [if_neg (by simpa using he)]
    by_cases h7 : L % 8 = 7
    · rw [if_neg (by simpa using h7)]
      right
      refine ⟨h7, ?_⟩
      rw [padCoreL]
      simp [hqlen]
      omega
    · rw [if_pos h7]
      left
      simp [hqlen]
      omega
  · rw [if_pos he]
    left
    have hlt : (L / 8 + 1) % B < B := Nat.mod_lt _ (by omega)
    have hk : (B - (L / 8 + 1) % B) % B = B - (L / 8 + 1) % B :=
      Nat.mod_eq_of_lt (by omega)
    rw [padCoreL, hk]
    simp [hqlen]
    omega

/-- Evaluation of `add_bit_little` on an explicit triple. -/
theorem add_bit_little_pos_false (d ap : Bytes) (rem : Nat) (h : 0 < rem) :
    add_bit_little (d, ap, rem) false = (d, ap, rem - 1) := by
  rw [add_bit_little]
  simp [h]

theorem add_bit_little_pos_true (d ap : Bytes) (rem : Nat) (h : 0 < rem) :
    add_bit_little (d, ap, rem) true = (d, setLastOr ap (1 <<< (8 - rem)), rem - 1) := by
  rw [add_bit_little]
  simp [h]

theorem add_bit_little_zero_true (d ap : Bytes) :
    add_bit_little (d, ap, 0) true = (d, ap ++ [1], 7) := by
  rw [add_bit_little]
  simp

theorem add_bit_little_zero_false (d ap : Bytes) :
    add_bit_little (d, ap, 0) false = (d, ap ++ [0], 7) := by
  rw [add_bit_little]
  simp

/-- The two prepended domain-separation bits of 0110*1 padding. -/
theorem add_bits01_cutoff_little (data : Bytes) (L : Nat) (hL : L ≤ 8 * data.length) :
    add_bit_little (add_bit_little (cutoff_little data (some L)) false) true =
      if L % 8 = 7 then
        (data.take (L / 8), [data.getD (L / 8) 0 % 2 ^ 7, 1], 7)
      else
        (data.take (L / 8),
         [data.getD (L / 8) 0 % 2 ^ (L % 8) + 2 ^ (L % 8 + 1)], 6 - L % 8) := by
  by_cases hr : L % 8 = 0
  · have hs : (L + 7) / 8 = L / 8 := by omega
    rw [cutoff_little]
    simp only [hs, hr, gt_iff_lt, Nat.lt_irrefl, if_false]
    rw [add_bit_little_zero_false, add_bit_little_pos_true _ _ _ (by omega),
      if_neg (show ¬ (0 : Nat) = 7 by decide), setLastOr]
    simp [Nat.mod_one]
  · have hr' : 0 < L % 8 := Nat.pos_of_ne_zero hr
    have hs : (L + 7) / 8 = L / 8 + 1 := by omega
    have hx : data.getD (L / 8) 0 % 2 ^ (L % 8) < 2 ^ (L % 8) :=
      Nat.mod_lt _ (by positivity)
    rw [cutoff_little]
    simp only [hs, if_pos hr']
    rw [add_bit_little_pos_false _ _ _ (by omega)]
    by_cases h7 : L % 8 = 7
    · rw [if_pos h7, show 8 - L % 8 - 1 = 0 by rw [h7], add_bit_little_zero_true,
        Nat.add_sub_cancel, List.take_take, min_eq_left (by omega),
        getD_take_succ, and_mask_eq_mod, h7]
      rfl
    · rw [if_neg h7, add_bit_little_pos_true _ _ _ (by omega), setLastOr,
        Nat.add_sub_cancel, List.take_take, min_eq_left (by omega),
        getD_take_succ, and_mask_eq_mod]
      have h1 : 8 - (8 - L % 8 - 1) = L % 8 + 1 := by omega
      have h2 : 8 - L % 8 - 1 - 1 = 6 - L % 8 := by omega
      have hLast : (([data.getD (L / 8) 0 % 2 ^ (L % 8)]).getLastD 0) =
          data.getD (L / 8) 0 % 2 ^ (L % 8) := rfl
      simp only [List.dropLast_single, List.nil_append]
      rw [h1, h2, hLast, Nat.one_shiftLeft,
        lor_two_pow_of_lt (hx.trans (Nat.pow_lt_pow_right (by norm_num) (by omega)))]

set_option maxHeartbeats 2000000 in
/-- Round trip for the 0110*1 scheme with explicit bit length. -/
theorem remove_add_0110star1 (data : Bytes) (B L : Nat) (hB : 1 ≤ B)
    (hL : L ≤ 8 * data.length) (bs : Option Nat) (hbs : bs = none ∨ bs = some B) :
    remove_0110star1_padding (add_0110star1_padding data B (some L)) bs =
      .ok (specTruncLittle data L, L) := by
  have hq : L / 8 ≤ data.length := div8_le_of_le hL
  have hqlen : (data.take (L / 8)).length = L / 8 := take_length_of_le hq
  simp only [add_0110star1_padding]
  rw [add_bits01_cutoff_little data L hL]
  by_cases h7 : L % 8 = 7
  · rw [if_pos h7]
    obtain ⟨x, hxdef⟩ : ∃ v, data.getD (L / 8) 0 % 2 ^ 7 = v := ⟨_, rfl⟩
    have hx : x < 2 ^ 7 := hxdef ▸ Nat.mod_lt _ (by positivity)
    rw [hxdef]
    have hlen2 : (data.take (L / 8) ++ [x, 1]).length = L / 8 + 2 := by
      simp [hqlen]
    simp only [hlen2]
    rw [show (L / 8 + 2) * 8 - 7 = L + 2 by omega]
    have hL2 : L + 2 ≤ 8 * (data.take (L / 8) ++ [x, 1]).length := by
      rw [hlen2]; omega
    have hRT := remove_add_10star1 (data.take (L / 8) ++ [x, 1]) B (L + 2) hB hL2 bs hbs
    have hT : specTruncLittle (data.take (L / 8) ++ [x, 1]) (L + 2)
        = (data.take (L / 8) ++ [x]) ++ [1] := by
      rw [specTruncLittle, if_neg (show ¬ (L + 2) % 8 = 0 by omega),
        show (L + 2) / 8 = L / 8 + 1 by omega, show (L + 2) % 8 = 1 by omega]
      congr 1
      · rw [show data.take (L / 8) ++ [x, 1] = (data.take (L / 8) ++ [x]) ++ [1] by simp]
        exact take_concat _ _ _ (by simp [hqlen])
      · rw [show data.take (L / 8) ++ [x, 1] = (data.take (L / 8) ++ [x]) ++ [1] by simp,
          getD_concat _ _ _ (by simp [hqlen])]
        rfl
    have hlb := add_10star1_len_le (data.take (L / 8) ++ [x, 1]) B (L + 2) hB hL2
    have hx7 : x &&& 1 <<< 7 = 0 := by
      rw [Nat.one_shiftLeft, Nat.and_two_pow, Nat.testBit_lt_two_pow hx]
      simp
    have hTlast : ((data.take (L / 8) ++ [x]) ++ [1]).getLastD 0 = 1 :=
      List.getLastD_concat _ _ _
    have hTlen : ((data.take (L / 8) ++ [x]) ++ [1]).length = L / 8 + 2 := by
      simp [hqlen]
    have hTgd : ((data.take (L / 8) ++ [x]) ++ [1]).getD (L / 8) 0 = x :=
      getD_core _ _ _ _ hqlen
    have hres : specTruncLittle data L = data.take (L / 8) ++ [x] := by
      rw [specTruncLittle, if_neg (by omega), and_mask_eq_mod,
        show (2 : Nat) ^ (L % 8) = 2 ^ 7 by rw [h7], hxdef]
    simp only [remove_0110star1_padding]
    rw [hRT]
    simp only [hT]
    rw [if_neg (show ¬ L + 2 < 2 by omega), show (L + 2) % 8 = 1 by omega]
    rw [if_neg (show ¬ (1 : Nat) = 0 by decide), hTlast]
    rw [if_neg (show ¬ (1 : Nat) &&& 1 <<< (1 - 1) = 0 by decide)]
    rw [if_neg (show ¬ (1 : Nat) = 2 by decide),
      if_neg (show ¬ (1 : Nat) = 2 by decide), hTlen,
      show L / 8 + 2 - 2 = L / 8 by omega, hTgd, hx7]
    rw [if_neg (show ¬ ((1 : Nat) ≤ 2 ∧ (0 : Nat) ≠ 0) by simp)]
    rw [if_pos (show (1 : Nat) ≤ 2 by decide), List.dropLast_concat,
      show L + 2 - 2 = L by omega, hres]
    rcases hbs with rfl | rfl
    · rfl
    · simp only []
      split
      · exfalso
        rcases hlb with hlb | ⟨_, hlb⟩ <;> omega
      · rfl
  · rw [if_neg h7]
    obtain ⟨x, hxdef⟩ : ∃ v, data.getD (L / 8) 0 % 2 ^ (L % 8) = v := ⟨_, rfl⟩
    have hx : x < 2 ^ (L % 8) := hxdef ▸ Nat.mod_lt _ (by positivity)
    rw [hxdef]
    have h27 : (2 : Nat) ^ (L % 8 + 1) ≤ 2 ^ 7 :=
      Nat.pow_le_pow_right (by norm_num) (by omega)
    have hw2 : x + 2 ^ (L % 8 + 1) < 2 ^ (L % 8 + 2) := by
      have h1 : (2 : Nat) ^ (L % 8 + 1) = 2 ^ (L % 8) * 2 := by ring
      have h2 : (2 : Nat) ^ (L % 8 + 2) = 2 ^ (L % 8) * 4 := by ring
      omega
    have hlen2 : (data.take (L / 8) ++ [x + 2 ^ (L % 8 + 1)]).length = L / 8 + 1 := by
      simp [hqlen]
    simp only [hlen2]
    rw [show (L / 8 + 1) * 8 - (6 - L % 8) = L + 2 by omega]
    have hL2 : L + 2 ≤ 8 * (data.take (L / 8) ++ [x + 2 ^ (L % 8 + 1)]).length := by
      rw [hlen2]; omega
    have hRT := remove_add_10star1 (data.take (L / 8) ++ [x + 2 ^ (L % 8 + 1)]) B
      (L + 2) hB hL2 bs hbs
    have hT : specTruncLittle (data.take (L / 8) ++ [x + 2 ^ (L % 8 + 1)]) (L + 2)
        = data.take (L / 8) ++ [x + 2 ^ (L % 8 + 1)] := by
      by_cases hr6 : L % 8 = 6
      · rw [specTruncLittle, if_pos (show (L + 2) % 8 = 0 by omega)]
        exact List.take_of_length_le (by rw [hlen2]; omega)
      · rw [specTruncLittle, if_neg (show ¬ (L + 2) % 8 = 0 by omega),
          show (L + 2) / 8 = L / 8 by omega, show (L + 2) % 8 = L % 8 + 2 by omega]
        congr 1
        · exact take_concat _ _ _ hqlen
        · rw [getD_concat _ _ _ hqlen, and_mask_eq_mod,
            Nat.mod_eq_of_lt hw2]
    have hlb := add_10star1_len_le (data.take (L / 8) ++ [x + 2 ^ (L % 8 + 1)]) B
      (L + 2) hB hL2
    have hTlast : (data.take (L / 8) ++ [x + 2 ^ (L % 8 + 1)]).getLastD 0
        = x + 2 ^ (L % 8 + 1) := List.getLastD_concat _ _ _
    have hb : (if (L + 2) % 8 = 0 then 8 else (L + 2) % 8) = L % 8 + 2 := by
      by_cases hr6 : L % 8 = 6
      · rw [if_pos (by omega), hr6]
      · rw [if_neg (by omega)]; omega
    have htbw : (x + 2 ^ (L % 8 + 1)).testBit (L % 8 + 1) = true := by
      have hxlt : x < 2 ^ (L % 8 + 1) :=
        hx.trans (Nat.pow_lt_pow_right (by norm_num) (by omega))
      rw [show x + 2 ^ (L % 8 + 1) = 2 ^ (L % 8 + 1) * 1 + x by ring,
        Nat.testBit_mul_pow_two_add 1 hxlt (L % 8 + 1)]
      simp
    have hwbit : (x + 2 ^ (L % 8 + 1)) &&& 1 <<< (L % 8 + 2 - 1) ≠ 0 := by
      rw [show L % 8 + 2 - 1 = L % 8 + 1 by omega, Nat.one_shiftLeft,
        Nat.and_two_pow, htbw]
      simp
    simp only [remove_0110star1_padding, hRT, hT]
    rw [if_neg (show ¬ L + 2 < 2 by omega), hb, hTlast, if_neg hwbit]
    by_cases hr0 : L % 8 = 0
    · -- b = 2: the checked lower domain bit sits in the last byte
      have hx0 : x = 0 := by
        rw [hr0] at hx
        omega
      have hres : specTruncLittle data L = data.take (L / 8) := by
        rw [specTruncLittle, if_pos hr0]
      have hlen0 : (data.take (L / 8) ++ [(2 : Nat)]).length = L / 8 + 1 := by
        simp [hqlen]
      have hgd0 : (data.take (L / 8) ++ [(2 : Nat)]).getD (L / 8) 0 = 2 :=
        getD_concat _ _ _ hqlen
      simp only [hx0, hr0, pow_succ, pow_zero, one_mul, Nat.zero_add] at hlb
      rw [hr0]
      simp only [hx0, pow_succ, pow_zero, one_mul, Nat.zero_add, if_true]
      rw [hlen0, Nat.add_sub_cancel, hgd0,
        show (2 : Nat) &&& 1 = 0 by decide]
      rw [if_neg (show ¬ ((2 : Nat) ≤ 2 ∧ (0 : Nat) ≠ 0) by simp)]
      rw [if_pos (show (2 : Nat) ≤ 2 by decide), List.dropLast_concat,
        show L + 2 - 2 = L by omega, hres]
      rcases hbs with rfl | rfl
      · rfl
      · simp only []
        split
        · exfalso
          rcases hlb with hlb | ⟨h7', _⟩
          · omega
          · omega
        · rfl
    · -- b ≥ 3: the lower domain bit is masked off inside the last byte
      have hres : specTruncLittle data L = data.take (L / 8) ++ [x] := by
        rw [specTruncLittle, if_neg hr0, and_mask_eq_mod, hxdef]
      have hmaskw : (x + 2 ^ (L % 8 + 1)) &&& ((1 <<< (L % 8 + 2 - 2)) - 1) = x := by
        rw [and_mask_eq_mod, show L % 8 + 2 - 2 = L % 8 by omega,
          show (2 : Nat) ^ (L % 8 + 1) = 2 ^ (L % 8) * 2 by ring,
          mod_add_two_pow_mul 2 hx]
      rw [if_neg (show ¬ (L % 8 + 2 ≤ 2 ∧
          (data.take (L / 8) ++ [x + 2 ^ (L % 8 + 1)]).getD
            ((data.take (L / 8) ++ [x + 2 ^ (L % 8 + 1)]).length -
              (if L % 8 + 2 = 2 then 1 else 2)) 0 &&&
            (if L % 8 + 2 = 2 then 1 else 1 <<< 7) ≠ 0)
          from fun h => by omega)]
      rw [if_neg (show ¬ L % 8 + 2 ≤ 2 by omega), List.dropLast_concat,
        hmaskw, show L + 2 - 2 = L by omega, hres]
      rcases hbs with rfl | rfl
      · rfl
      · simp only []
        split
        · exfalso
          rcases hlb with hlb | ⟨h7', _⟩
          · omega
          · omega
        · rfl


/-! ## Reducing `bitlength = None` to the full byte length -/

theorem cutoff_little_full (data : Bytes) :
    cutoff_little data (some (data.length * 8)) = cutoff_little data none := by
  simp only [cutoff_little]
  rw [if_neg (show ¬ data.length * 8 % 8 > 0 by omega),
    show (data.length * 8 + 7) / 8 = data.length by omega, List.take_length]

theorem cutoff_big_full (data : Bytes) :
    cutoff_big data (some (data.length * 8)) = cutoff_big data none := by
  simp only [cutoff_big]
  rw [if_neg (show ¬ data.length * 8 % 8 > 0 by omega),
    show (data.length * 8 + 7) / 8 = data.length by omega, List.take_length]

theorem add_10star_none (data : Bytes) (B : Nat) :
    add_10star_padding data B none =
      add_10star_padding data B (some (data.length * 8)) := by
  rw [add_10star_padding, add_10star_padding, cutoff_little_full]

theorem add_10star1_none (data : Bytes) (B : Nat) :
    add_10star1_padding data B none =
      add_10star1_padding data B (some (data.length * 8)) := by
  rw [add_10star1_padding, add_10star1_padding, cutoff_little_full]

theorem add_0110star1_none (data : Bytes) (B : Nat) :
    add_0110star1_padding data B none =
      add_0110star1_padding data B (some (data.length * 8)) := by
  rw [add_0110star1_padding, add_0110star1_padding, cutoff_little_full]

theorem add_sha2_none (data : Bytes) (B : Nat) :
    add_sha2_padding data B none =
      add_sha2_padding data B (some (data.length * 8)) := by
  rw [add_sha2_padding, add_sha2_padding, cutoff_big_full]
  simp only [Option.getD_none, Option.getD_some]
  rfl

/-- The full byte length is kept unchanged by the spec-side truncation. -/
theorem specTruncLittle_full (data : Bytes) :
    specTruncLittle data (data.length * 8) = data := by
  rw [specTruncLittle, if_pos (by omega), Nat.mul_div_cancel _ (by norm_num),
    List.take_length]

theorem specTruncBig_full (data : Bytes) :
    specTruncBig data (data.length * 8) = data := by
  rw [specTruncBig, if_pos (by omega), Nat.mul_div_cancel _ (by norm_num),
    List.take_length]

/-! ## Output length of the add functions (blocksize multiples) -/

theorem add_10star_length (data : Bytes) (B L : Nat) (hB : 1 ≤ B)
    (hL : L ≤ 8 * data.length) :
    0 < (add_10star_padding data B (some L)).length ∧
      (add_10star_padding data B (some L)).length % B = 0 := by
  rw [add_10star_eq data B L hB hL]
  simp only [List.length_append, padCoreL_length hL, List.length_replicate]
  exact ⟨by omega, fill_mod B (L / 8 + 1) hB⟩

theorem add_10star1_length (data : Bytes) (B L : Nat) (hB : 1 ≤ B)
    (hL : L ≤ 8 * data.length) :
    0 < (add_10star1_padding data B (some L)).length ∧
      (add_10star1_padding data B (some L)).length % B = 0 := by
  have hm := fill_mod B (L / 8 + 1) hB
  obtain ⟨f, hf⟩ : ∃ f, (B - (L / 8 + 1) % B) % B = f := ⟨_, rfl⟩
  rw [hf] at hm
  rw [add_10star1_eq data B L hB hL]
  split
  · rename_i he
    have hr : (L / 8 + 1) % B < B := Nat.mod_lt _ (by omega)
    have hf1 : 1 ≤ f := by
      rw [← hf, Nat.mod_eq_of_lt (by omega)]
      omega
    simp only [List.length_append, padCoreL_length hL, List.length_replicate,
      List.length_singleton, hf]
    refine ⟨by omega, ?_⟩
    rw [show L / 8 + 1 + (f - 1) + 1 = L / 8 + 1 + f by omega]
    exact hm
  · split
    · rename_i he h7
      simp only [not_not] at he
      have hf0 : f = 0 := by
        rw [← hf, he]
        simp
      rw [hf0, Nat.add_zero] at hm
      simp only [List.length_append, take_length_of_le (div8_le_of_le hL),
        List.length_singleton]
      exact ⟨by omega, hm⟩
    · rename_i he h7
      simp only [not_not] at he
      have hf0 : f = 0 := by
        rw [← hf, he]
        simp
      rw [hf0, Nat.add_zero] at hm
      simp only [List.length_append, padCoreL_length hL, List.length_replicate,
        List.length_singleton]
      refine ⟨by omega, ?_⟩
      rw [show L / 8 + 1 + (B - 1) + 1 = L / 8 + 1 + B by omega,
        Nat.add_mod_right]
      exact hm

theorem add_0110star1_length (data : Bytes) (B L : Nat) (hB : 1 ≤ B)
    (hL : L ≤ 8 * data.length) :
    0 < (add_0110star1_padding data B (some L)).length ∧
      (add_0110star1_padding data B (some L)).length % B = 0 := by
  have hq : L / 8 ≤ data.length := div8_le_of_le hL
  have hqlen : (data.take (L / 8)).length = L / 8 := take_length_of_le hq
  simp only [add_0110star1_padding]
  rw [add_bits01_cutoff_little data L hL]
  by_cases h7 : L % 8 = 7
  · rw [if_pos h7]
    have hlen2 : (data.take (L / 8) ++ [data.getD (L / 8) 0 % 2 ^ 7, 1]).length
        = L / 8 + 2 := by simp [hqlen]
    simp only [hlen2]
    rw [show (L / 8 + 2) * 8 - 7 = L + 2 by omega]
    exact add_10star1_length _ B (L + 2) hB (by rw [hlen2]; omega)
  · rw [if_neg h7]
    have hlen2 : (data.take (L / 8) ++
        [data.getD (L / 8) 0 % 2 ^ (L % 8) + 2 ^ (L % 8 + 1)]).length
        = L / 8 + 1 := by simp [hqlen]
    simp only [hlen2]
    rw [show (L / 8 + 1) * 8 - (6 - L % 8) = L + 2 by omega]
    exact add_10star1_length _ B (L + 2) hB (by rw [hlen2]; omega)


/-! ## Big-endian bit lemmas for the SHA-2 scheme -/

theorem lor_two_pow_high {a b k : Nat} (hb : b < 2 ^ k) :
    (a * 2 ^ (k + 1) + b) ||| 2 ^ k = a * 2 ^ (k + 1) + b + 2 ^ k := by
  have hpow : (2 : Nat) ^ (k + 1) = 2 ^ k + 2 ^ k := by ring
  have hb1 : b < 2 ^ (k + 1) := by omega
  have hlor := lor_two_pow_of_lt hb
  have hb2 : b ||| 2 ^ k < 2 ^ (k + 1) := by rw [hlor]; omega
  apply Nat.eq_of_testBit_eq
  intro j
  rw [Nat.testBit_lor,
    show a * 2 ^ (k + 1) + b + 2 ^ k = 2 ^ (k + 1) * a + (b ||| 2 ^ k) by
      rw [hlor]; ring,
    show a * 2 ^ (k + 1) + b = 2 ^ (k + 1) * a + b by ring,
    Nat.testBit_mul_pow_two_add a hb1 j,
    Nat.testBit_mul_pow_two_add a hb2 j]
  by_cases hjk : j < k + 1
  · rw [if_pos hjk, if_pos hjk, Nat.testBit_lor]
  · rw [if_neg hjk, if_neg hjk, Nat.testBit_two_pow]
    simp [show ¬ k = j by omega]

theorem and_shiftLeft_mask (v r s : Nat) :
    v &&& (((1 <<< r) - 1) <<< s) = v / 2 ^ s % 2 ^ r * 2 ^ s := by
  have h1 : v / 2 ^ s % 2 ^ r * 2 ^ s = ((v >>> s) % 2 ^ r) <<< s := by
    rw [Nat.shiftLeft_eq, Nat.shiftRight_eq_div_pow]
  rw [h1]
  apply Nat.eq_of_testBit_eq
  intro j
  rw [Nat.testBit_and, Nat.one_shiftLeft, Nat.testBit_shiftLeft,
    Nat.testBit_shiftLeft, Nat.testBit_two_pow_sub_one, Nat.testBit_mod_two_pow,
    Nat.testBit_shiftRight]
  by_cases hj : s ≤ j
  · rw [show s + (j - s) = j by omega]
    cases v.testBit j <;> cases hd1 : decide (j ≥ s) <;>
      cases hd2 : decide (j - s < r) <;> simp_all
  · simp [show ¬ j ≥ s from hj]

/-- `_add_bit_big` applied to `_cutoff_big`: the first `L` bits of `data`
(big-endian bit order) with one set bit appended, minimal bytes. -/
theorem add_bit_cutoff_big (data : Bytes) (L : Nat) (hL : L ≤ 8 * data.length) :
    add_bit_big (cutoff_big data (some L)) true =
      (data.take (L / 8),
       [data.getD (L / 8) 0 / 2 ^ (8 - L % 8) % 2 ^ (L % 8) * 2 ^ (8 - L % 8)
          + 2 ^ (7 - L % 8)],
       7 - L % 8) := by
  by_cases hr : L % 8 = 0
  · have hs : (L + 7) / 8 = L / 8 := by omega
    rw [cutoff_big]
    simp only [hs, hr, gt_iff_lt, Nat.lt_irrefl, if_false]
    rw [add_bit_big]
    simp [Nat.mod_one]
  · have hr' : 0 < L % 8 := Nat.pos_of_ne_zero hr
    have hs : (L + 7) / 8 = L / 8 + 1 := by omega
    rw [cutoff_big]
    simp only [hs, if_pos hr']
    rw [add_bit_big]
    simp only [if_pos (show 8 - L % 8 > 0 by omega), if_true, setLastOr,
      List.dropLast_single, List.nil_append, Nat.add_sub_cancel]
    rw [List.take_take, min_eq_left (show L / 8 ≤ L / 8 + 1 by omega),
      getD_take_succ, and_shiftLeft_mask]
    have hLast : ([data.getD (L / 8) 0 / 2 ^ (8 - L % 8) % 2 ^ (L % 8) *
        2 ^ (8 - L % 8)].getLastD 0) =
        data.getD (L / 8) 0 / 2 ^ (8 - L % 8) % 2 ^ (L % 8) * 2 ^ (8 - L % 8) :=
      rfl
    rw [hLast, Nat.one_shiftLeft, show 8 - L % 8 - 1 = 7 - L % 8 by omega]
    have hk : 8 - L % 8 = (7 - L % 8) + 1 := by omega
    rw [hk, show (data.getD (L / 8) 0 / 2 ^ ((7 - L % 8) + 1) % 2 ^ (L % 8) *
        2 ^ ((7 - L % 8) + 1)) =
        (data.getD (L / 8) 0 / 2 ^ ((7 - L % 8) + 1) % 2 ^ (L % 8) *
        2 ^ ((7 - L % 8) + 1) + 0) by omega,
      lor_two_pow_high (by positivity)]

theorem findFirst1Aux_spec (k m : Nat) :
    ∀ fuel, 2 ^ k ≤ fuel → findFirst1Aux fuel (2 ^ k * (2 * m + 1)) = k := by
  induction k with
  | zero =>
    intro fuel hf
    obtain ⟨f, rfl⟩ : ∃ f, fuel = f + 1 := ⟨fuel - 1, by omega⟩
    rw [findFirst1Aux, pow_zero, one_mul, if_neg (by omega)]
  | succ k ih =>
    intro fuel hf
    have h2k : 1 ≤ 2 ^ k := Nat.one_le_two_pow
    have hpow : (2 : Nat) ^ (k + 1) = 2 * 2 ^ k := by ring
    obtain ⟨f, rfl⟩ : ∃ f, fuel = f + 1 := ⟨fuel - 1, by omega⟩
    have hv : 2 ^ (k + 1) * (2 * m + 1) = 2 * (2 ^ k * (2 * m + 1)) := by ring
    rw [findFirst1Aux, hv, if_pos (Nat.mul_mod_right 2 _),
      Nat.mul_div_cancel_left _ (by norm_num), ih f (by omega)]

theorem find_first_1_pow (k m : Nat) :
    find_first_1 (2 ^ k * (2 * m + 1)) = (k : Int) := by
  have hle : 2 ^ k ≤ 2 ^ k * (2 * m + 1) := by
    have := Nat.mul_le_mul_left (2 ^ k) (show 1 ≤ 2 * m + 1 by omega)
    omega
  rw [find_first_1, if_neg (by positivity), findFirst1Aux_spec k m _ hle]

theorem and_255_eq_mod (y : Nat) : y &&& 255 = y % 256 := by
  have h1 := and_mask_eq_mod y 8
  norm_num [Nat.one_shiftLeft] at h1
  exact h1

theorem toBytesBE8_eq (L : Nat) (h : L < 2 ^ 64) :
    toBytesBE8 L = some [L >>> 56 &&& 255, L >>> 48 &&& 255, L >>> 40 &&& 255,
      L >>> 32 &&& 255, L >>> 24 &&& 255, L >>> 16 &&& 255, L >>> 8 &&& 255,
      L >>> 0 &&& 255] := by
  rw [toBytesBE8, if_pos h]
  rfl

theorem fromBytesBE_bytes (L : Nat) (h : L < 2 ^ 64) :
    fromBytesBE [L >>> 56 &&& 255, L >>> 48 &&& 255, L >>> 40 &&& 255,
      L >>> 32 &&& 255, L >>> 24 &&& 255, L >>> 16 &&& 255, L >>> 8 &&& 255,
      L >>> 0 &&& 255] = L := by
  simp only [fromBytesBE, List.foldl_cons, List.foldl_nil, and_255_eq_mod,
    Nat.shiftRight_eq_div_pow]
  norm_num
  omega


/-- `add_sha2_padding` output: big-endian core, fill-up zeros, and the 8-byte
big-endian length field. -/
theorem add_sha2_eq (data : Bytes) (B L : Nat) (hB : 1 ≤ B)
    (hL : L ≤ 8 * data.length) (h64 : L < 2 ^ 64) :
    add_sha2_padding data B (some L) =
      some ((data.take (L / 8) ++
        [data.getD (L / 8) 0 / 2 ^ (8 - L % 8) % 2 ^ (L % 8) * 2 ^ (8 - L % 8)
          + 2 ^ (7 - L % 8)]) ++
        (List.replicate ((B - (L / 8 + 9) % B) % B) 0 ++
        [L >>> 56 &&& 255, L >>> 48 &&& 255, L >>> 40 &&& 255, L >>> 32 &&& 255,
         L >>> 24 &&& 255, L >>> 16 &&& 255, L >>> 8 &&& 255,
         L >>> 0 &&& 255])) := by
  rw [add_sha2_padding, add_bit_cutoff_big data L hL]
  simp only [Option.getD_some, List.length_singleton,
    take_length_of_le (div8_le_of_le hL)]
  rw [toBytesBE8_eq L h64]
  by_cases he : (L / 8 + 1 + 8) % B = 0
  · rw [if_neg (by omega)]
    have hf : (B - (L / 8 + 9) % B) % B = 0 := by
      rw [show L / 8 + 9 = L / 8 + 1 + 8 by omega, he, Nat.sub_zero, Nat.mod_self]
    rw [hf]
    simp
  · rw [if_pos (by omega)]
    have hlt : (L / 8 + 1 + 8) % B < B := Nat.mod_lt _ (by omega)
    have hf : (B - (L / 8 + 9) % B) % B = B - (L / 8 + 1 + 8) % B := by
      rw [show L / 8 + 9 = L / 8 + 1 + 8 by omega, Nat.mod_eq_of_lt (by omega)]
    rw [hf]
    simp


set_option maxHeartbeats 1000000 in
/-- Round trip for the SHA-2 scheme with explicit bit length; the bit length
must fit into the 8-byte big-endian length field. -/
theorem remove_add_sha2 (data : Bytes) (B L : Nat) (hB : 1 ≤ B)
    (hL : L ≤ 8 * data.length) (h64 : L < 2 ^ 64) (bs : Option Nat)
    (hbs : bs = none ∨ bs = some B) :
    ∃ p, add_sha2_padding data B (some L) = some p ∧
      remove_sha2_padding p bs = .ok (specTruncBig data L, L) := by
  refine ⟨_, add_sha2_eq data B L hB hL h64, ?_⟩
  have hq : L / 8 ≤ data.length := div8_le_of_le hL
  have hqlen : (data.take (L / 8)).length = L / 8 := take_length_of_le hq
  obtain ⟨hi, hhidef⟩ :
      ∃ v, data.getD (L / 8) 0 / 2 ^ (8 - L % 8) % 2 ^ (L % 8) = v := ⟨_, rfl⟩
  have hhix : hi < 2 ^ (L % 8) := hhidef ▸ Nat.mod_lt _ (by positivity)
  rw [hhidef]
  obtain ⟨w, hwdef⟩ : ∃ v, hi * 2 ^ (8 - L % 8) + 2 ^ (7 - L % 8) = v := ⟨_, rfl⟩
  have h7pos : (1 : Nat) ≤ 2 ^ (7 - L % 8) := Nat.one_le_two_pow
  have hw0 : w ≠ 0 := by omega
  rw [hwdef]
  obtain ⟨k, hkdef⟩ : ∃ v, (B - (L / 8 + 9) % B) % B = v := ⟨_, rfl⟩
  have hkB : k < B := hkdef ▸ Nat.mod_lt _ (by omega)
  have hmod : (L / 8 + 9 + k) % B = 0 := hkdef ▸ fill_mod B (L / 8 + 9) hB
  rw [hkdef]
  obtain ⟨lb, hlbdef⟩ : ∃ v, [L >>> 56 &&& 255, L >>> 48 &&& 255,
      L >>> 40 &&& 255, L >>> 32 &&& 255, L >>> 24 &&& 255, L >>> 16 &&& 255,
      L >>> 8 &&& 255, L >>> 0 &&& 255] = v := ⟨_, rfl⟩
  have hlblen : lb.length = 8 := by rw [← hlbdef]; rfl
  have hlbsum : fromBytesBE lb = L := by
    rw [← hlbdef]; exact fromBytesBE_bytes L h64
  rw [hlbdef]
  have hPlen : ((data.take (L / 8) ++ [w]) ++ (List.replicate k 0 ++ lb)).length
      = L / 8 + 9 + k := by
    simp [hqlen, hlblen]
    omega
  have hfrontlen : ((data.take (L / 8) ++ [w]) ++ List.replicate k 0).length
      = L / 8 + 1 + k := by
    simp [hqlen]
    omega
  have hassoc : (data.take (L / 8) ++ [w]) ++ (List.replicate k 0 ++ lb)
      = ((data.take (L / 8) ++ [w]) ++ List.replicate k 0) ++ lb := by
    simp [List.append_assoc]
  have hdrop : ((data.take (L / 8) ++ [w]) ++ (List.replicate k 0 ++ lb)).drop
      (L / 8 + 1 + k) = lb := by
    rw [hassoc, ← hfrontlen, List.drop_left]
  have htake : ((data.take (L / 8) ++ [w]) ++ (List.replicate k 0 ++ lb)).take
      (L / 8 + 1 + k) = (data.take (L / 8) ++ [w]) ++ List.replicate k 0 := by
    rw [hassoc, ← hfrontlen, List.take_left]
  have hi9 : lastNonZeroLen ((data.take (L / 8) ++ [w]) ++ List.replicate k 0)
      = L / 8 + 1 := lastNonZeroLen_core _ _ _ _ hw0 hqlen
  have hgd : ((data.take (L / 8) ++ [w]) ++ (List.replicate k 0 ++ lb)).getD
      (L / 8) 0 = w := getD_core _ _ _ _ hqlen
  have htk : ((data.take (L / 8) ++ [w]) ++ (List.replicate k 0 ++ lb)).take
      (L / 8) = data.take (L / 8) := take_core _ _ _ _ hqlen
  have hff : find_first_1 w = ((7 - L % 8 : Nat) : Int) := by
    rw [← hwdef, show hi * 2 ^ (8 - L % 8) + 2 ^ (7 - L % 8)
        = 2 ^ (7 - L % 8) * (2 * hi + 1) by
      rw [show 8 - L % 8 = (7 - L % 8) + 1 by omega]; ring]
    exact find_first_1_pow _ _
  have hbad : badLen (L / 8 + 9 + k) 9 bs = false := by
    rcases hbs with rfl | rfl
    · simp only [badLen, Bool.or_false]
      exact decide_eq_false (by omega)
    · simp only [badLen, hmod]
      rw [decide_eq_false (by omega : ¬ L / 8 + 9 + k < 9)]
      rfl
  simp only [remove_sha2_padding, hPlen]
  rw [show L / 8 + 9 + k - 8 = L / 8 + 1 + k by omega]
  rw [hdrop, htake, hlbsum, hi9, hbad]
  simp only [Bool.false_eq_true, if_false]
  rw [if_neg (show ¬ L / 8 + 1 = 0 by omega), Nat.add_sub_cancel, hgd, hff]
  simp only [Int.toNat_natCast]
  by_cases hr : L % 8 = 0
  · have hres0 : specTruncBig data L = data.take (L / 8) := by
      rw [specTruncBig, if_pos hr]
    rw [if_pos (show 7 - L % 8 = 7 by omega)]
    simp only []
    rw [if_neg (show ¬ ((((L / 8 : Nat) : Int) - 1) * 8 +
        (8 - ((0 : Nat) : Int)) ≠ (L : Int)) by push_cast; omega)]
    rw [htk, hres0]
    rcases hbs with rfl | rfl
    · rfl
    · simp only []
      rw [if_neg (show ¬ (L + 8) / 8 + 8 + B - 1 < L / 8 + 9 + k by omega)]
  · have hmask : w &&& (((1 <<< (L % 8)) - 1) <<< (8 - L % 8))
        = hi * 2 ^ (8 - L % 8) := by
      rw [and_shiftLeft_mask]
      have hwdiv : w / 2 ^ (8 - L % 8) = hi := by
        rw [← hwdef, show hi * 2 ^ (8 - L % 8) + 2 ^ (7 - L % 8)
            = 2 ^ (8 - L % 8) * hi + 2 ^ (7 - L % 8) by ring,
          Nat.mul_add_div (by positivity),
          Nat.div_eq_of_lt (Nat.pow_lt_pow_right (by norm_num) (by omega)),
          Nat.add_zero]
      rw [hwdiv, Nat.mod_eq_of_lt hhix]
    have hres1 : specTruncBig data L
        = data.take (L / 8) ++ [hi * 2 ^ (8 - L % 8)] := by
      rw [specTruncBig, if_neg hr, and_shiftLeft_mask, hhidef]
    rw [if_neg (show ¬ 7 - L % 8 = 7 by omega)]
    simp only []
    rw [show 7 - L % 8 + 1 = 8 - L % 8 by omega,
      show 8 - (8 - L % 8) = L % 8 by omega]
    rw [if_neg (show ¬ ((((L / 8 + 1 : Nat) : Int) - 1) * 8 +
        (8 - ((8 - L % 8 : Nat) : Int)) ≠ (L : Int)) by push_cast; omega)]
    rw [htk, hmask, hres1]
    rcases hbs with rfl | rfl
    · rfl
    · simp only []
      rw [if_neg (show ¬ (L + 8) / 8 + 8 + B - 1 < L / 8 + 9 + k by omega)]


theorem add_sha2_length (data : Bytes) (B L : Nat) (hB : 1 ≤ B)
    (hL : L ≤ 8 * data.length) (h64 : L < 2 ^ 64) :
    ∃ p, add_sha2_padding data B (some L) = some p ∧
      0 < p.length ∧ p.length % B = 0 := by
  refine ⟨_, add_sha2_eq data B L hB hL h64, by simp, ?_⟩
  have hqlen : (data.take (L / 8)).length = L / 8 :=
    take_length_of_le (div8_le_of_le hL)
  have hm := fill_mod B (L / 8 + 9) hB
  obtain ⟨k, hkdef⟩ : ∃ v, (B - (L / 8 + 9) % B) % B = v := ⟨_, rfl⟩
  rw [hkdef] at hm
  rw [hkdef]
  simp only [List.length_append, List.length_replicate, List.length_cons,
    List.length_nil, List.length_singleton, hqlen]
  exact (congrArg (fun n => n % B) (show _ = L / 8 + 9 + k by omega)).trans hm


/-! ## Claim C7: the domain-separation checks of `remove_0110star1_padding` -/

/-- C7 (corrected): after a successful 10*1 removal with `bits` recovered
bits, `remove_0110star1_padding` raises the malformed-padding error when
`bits < 2`, or when the bit immediately below the recovered boundary (the
prepended `1` domain bit) is `0`; the bit below that (the prepended `0`
domain bit) is only checked when it does not share the recovered last byte
with data bits, i.e. when `b ≤ 2`. -/
theorem remove_0110star1_domain_checks (data0 : Bytes) (bs : Option Nat)
    (d1 : Bytes) (bits : Nat)
    (h : remove_10star1_padding data0 bs = .ok (d1, bits)) :
    (bits < 2 →
      remove_0110star1_padding data0 bs =
        .error "Data does not satisfy 0110*1 padding")
    ∧ (2 ≤ bits →
      d1.getLastD 0 &&& (1 <<< ((if bits % 8 = 0 then 8 else bits % 8) - 1)) = 0 →
      remove_0110star1_padding data0 bs =
        .error "Data does not satisfy 0110*1 padding")
    ∧ (2 ≤ bits → (if bits % 8 = 0 then 8 else bits % 8) ≤ 2 →
      d1.getD (d1.length -
          (if (if bits % 8 = 0 then 8 else bits % 8) = 2 then 1 else 2)) 0 &&&
        (if (if bits % 8 = 0 then 8 else bits % 8) = 2 then 1 else 1 <<< 7) ≠ 0 →
      remove_0110star1_padding data0 bs =
        .error "Data does not satisfy 0110*1 padding") := by
  refine ⟨?_, ?_, ?_⟩
  · intro hlt
    simp only [remove_0110star1_padding, h]
    rw [if_pos hlt]
  · intro h2 hbit
    simp only [remove_0110star1_padding, h]
    rw [if_neg (by omega), if_pos hbit]
  · intro h2 hb2 hlow
    simp only [remove_0110star1_padding, h]
    rw [if_neg (by omega)]
    by_cases hc : d1.getLastD 0 &&&
        (1 <<< ((if bits % 8 = 0 then 8 else bits % 8) - 1)) = 0
    · rw [if_pos hc]
    · rw [if_neg hc, if_pos ⟨hb2, hlow⟩]

/-- C7 counterexample: on input `[0x8E]` the 10*1 removal recovers the byte
`6` with `bits = 3`; the lower prepended domain bit (bit `1` of `6`) is `1`,
yet `remove_0110star1_padding` returns successfully instead of raising,
because the `b > 2` branch masks that bit off without checking it. -/
theorem remove_0110star1_lower_bit_unchecked :
    remove_10star1_padding [142] none = .ok ([6], 3) ∧
    (6 : Nat).testBit 1 = true ∧
    remove_0110star1_padding [142] none = .ok ([0], 1) := by
  exact ⟨rfl, by decide, rfl⟩


/-- C7 witness: concrete application of the domain-check theorem. On `[0x81]`
the 10*1 removal recovers `([], 0)` and `bits = 0 < 2` forces the error. -/
theorem remove_0110star1_domain_checks_witness :
    remove_0110star1_padding [129] none =
      .error "Data does not satisfy 0110*1 padding" :=
  (remove_0110star1_domain_checks [129] none [] 0 rfl).1 (by decide)

/-! ## Claim C2: round trips of all four padding schemes -/

/-- C2 (corrected): each remove function inverts its add function, both with
an explicit bit length `L ≤ 8·len(data)` and with `bitlength = None`, and
both with and without the blocksize argument.  For the SHA-2 scheme the bit
length must additionally fit the 8-byte big-endian length field
(`L < 2^64`); otherwise `add_sha2_padding` raises `OverflowError` (modelled
as `none`). -/
theorem padding_round_trip (data : Bytes) (B L : Nat) (bs : Option Nat)
    (hB : 1 ≤ B) (hbs : bs = none ∨ bs = some B) :
    (L ≤ 8 * data.length →
      remove_10star_padding (add_10star_padding data B (some L)) bs =
        .ok (specTruncLittle data L, L) ∧
      remove_10star1_padding (add_10star1_padding data B (some L)) bs =
        .ok (specTruncLittle data L, L) ∧
      remove_0110star1_padding (add_0110star1_padding data B (some L)) bs =
        .ok (specTruncLittle data L, L) ∧
      (L < 2 ^ 64 →
        ∃ p, add_sha2_padding data B (some L) = some p ∧
          remove_sha2_padding p bs = .ok (specTruncBig data L, L)))
    ∧ (remove_10star_padding (add_10star_padding data B none) bs =
        .ok (data, data.length * 8) ∧
      remove_10star1_padding (add_10star1_padding data B none) bs =
        .ok (data, data.length * 8) ∧
      remove_0110star1_padding (add_0110star1_padding data B none) bs =
        .ok (data, data.length * 8) ∧
      (data.length * 8 < 2 ^ 64 →
        ∃ p, add_sha2_padding data B none = some p ∧
          remove_sha2_padding p bs = .ok (data, data.length * 8))) := by
  constructor
  · intro hL
    exact ⟨remove_add_10star data B L hB hL bs hbs,
      remove_add_10star1 data B L hB hL bs hbs,
      remove_add_0110star1 data B L hB hL bs hbs,
      fun h64 => remove_add_sha2 data B L hB hL h64 bs hbs⟩
  · refine ⟨?_, ?_, ?_, ?_⟩
    · rw [add_10star_none]
      have h := remove_add_10star data B (data.length * 8) hB (by omega) bs hbs
      rwa [specTruncLittle_full] at h
    · rw [add_10star1_none]
      have h := remove_add_10star1 data B (data.length * 8) hB (by omega) bs hbs
      rwa [specTruncLittle_full] at h
    · rw [add_0110star1_none]
      have h := remove_add_0110star1 data B (data.length * 8) hB (by omega) bs hbs
      rwa [specTruncLittle_full] at h
    · intro h64
      rw [add_sha2_none]
      have h := remove_add_sha2 data B (data.length * 8) hB (by omega) h64 bs hbs
      rwa [specTruncBig_full] at h

/-- C2 witness: the round trips evaluated at a concrete input. -/
theorem padding_round_trip_witness :
    remove_10star_padding (add_10star_padding [171, 205] 2 (some 13)) (some 2) =
      .ok (specTruncLittle [171, 205] 13, 13) :=
  ((padding_round_trip [171, 205] 2 13 (some 2) (by norm_num) (Or.inr rfl)).1
    (by norm_num)).1

/-- C2 counterexample: for `L = 2^64` the SHA-2 scheme does not round-trip;
`add_sha2_padding` already fails (Python raises `OverflowError` in
`bitlength.to_bytes(8, byteorder='big')`), so no padded string exists for
the remove function to invert. -/
theorem padding_round_trip_sha2_overflow :
    add_sha2_padding (List.replicate (2 ^ 61) 0) 1 (some (2 ^ 64)) = none := by
  rw [add_sha2_padding]
  simp only [Option.getD_some]
  rw [toBytesBE8, if_neg (by norm_num)]

/-! ## Claim C9: the add functions emit whole blocks -/

/-- C9 (corrected): every padded output is nonempty and a whole multiple of
the blocksize, for explicit bit lengths `L ≤ 8·len(data)` and for
`bitlength = None`; for the SHA-2 scheme only as long as the bit length
fits the length field (`L < 2^64`), since otherwise `add_sha2_padding`
raises instead of returning a padded string. -/
theorem padding_lengths (data : Bytes) (B L : Nat) (hB : 1 ≤ B) :
    (L ≤ 8 * data.length →
      (0 < (add_10star_padding data B (some L)).length ∧
        (add_10star_padding data B (some L)).length % B = 0) ∧
      (0 < (add_10star1_padding data B (some L)).length ∧
        (add_10star1_padding data B (some L)).length % B = 0) ∧
      (0 < (add_0110star1_padding data B (some L)).length ∧
        (add_0110star1_padding data B (some L)).length % B = 0) ∧
      (L < 2 ^ 64 →
        ∃ p, add_sha2_padding data B (some L) = some p ∧
          0 < p.length ∧ p.length % B = 0))
    ∧ ((0 < (add_10star_padding data B none).length ∧
        (add_10star_padding data B none).length % B = 0) ∧
      (0 < (add_10star1_padding data B none).length ∧
        (add_10star1_padding data B none).length % B = 0) ∧
      (0 < (add_0110star1_padding data B none).length ∧
        (add_0110star1_padding data B none).length % B = 0) ∧
      (data.length * 8 < 2 ^ 64 →
        ∃ p, add_sha2_padding data B none = some p ∧
          0 < p.length ∧ p.length % B = 0)) := by
  constructor
  · intro hL
    exact ⟨add_10star_length data B L hB hL,
      add_10star1_length data B L hB hL,
      add_0110star1_length data B L hB hL,
      fun h64 => add_sha2_length data B L hB hL h64⟩
  · refine ⟨?_, ?_, ?_, ?_⟩
    · rw [add_10star_none]
      exact add_10star_length data B _ hB (by omega)
    · rw [add_10star1_none]
      exact add_10star1_length data B _ hB (by omega)
    · rw [add_0110star1_none]
      exact add_0110star1_length data B _ hB (by omega)
    · intro h64
      rw [add_sha2_none]
      exact add_sha2_length data B _ hB (by omega) h64

/-- C9 witness: the length properties at a concrete input. -/
theorem padding_lengths_witness :
    0 < (add_10star1_padding [7] 3 (some 5)).length ∧
      (add_10star1_padding [7] 3 (some 5)).length % 3 = 0 :=
  ((padding_lengths [7] 3 5 (by norm_num)).1 (by norm_num)).2.1

/-- C9 counterexample: for `L = 2^64` the SHA-2 padding function raises
(returns `none`) instead of producing a nonempty whole-block output. -/
theorem padding_lengths_sha2_overflow :
    add_sha2_padding (List.replicate (2 ^ 61) 1) 1 (some (2 ^ 64)) = none := by
  rw [add_sha2_padding]
  simp only [Option.getD_some]
  rw [toBytesBE8, if_neg (by norm_num)]


/-! ## sponge.py / sponge_crypto.py : duplex sponge and the AEAD scheme

The abstract `State`/`F` interface of `sponge.py` is modelled by a record of
operations over an abstract state type `σ`; `from_bytes` may fail (oversized
input), which the concrete Keccak state signals with `ValueError`. -/

/-- Abstract sponge state operations (`State` and `F` of sponge.py). -/
structure SpongeOps (σ : Type) where
  newState : σ
  fromBytes : σ → Bytes → Except String σ
  toBytes : σ → Bytes
  f : σ → σ

/-- `DuplexSponge.duplex` (sponge.py), with `result_bytes` always given, as
at every AEAD call site.  Failing `assert`s are errors. -/
def duplex {σ : Type} (ops : SpongeOps σ) (pad : Bytes → Nat → Option Nat → Bytes)
    (blocksize : Nat) (st : σ) (data : Bytes) (result_bytes : Nat)
    (input_bitlength : Option Nat) : Except String (Bytes × σ) :=
  if ¬ result_bytes ≤ blocksize then
    .error "assert result_bytes <= self._blocksize"
  else
    let padded := pad data blocksize input_bitlength
    if ¬ padded.length ≤ blocksize then .error "assert len(data) <= self._blocksize"
    else
      match ops.fromBytes st padded with
      | .error e => .error e
      | .ok st1 =>
        let st2 := ops.f st1
        if result_bytes > 0 then .ok ((ops.toBytes st2).take result_bytes, st2)
        else .ok ([], st2)

/-- Fuel-based chunking loop of `SpongeAEAD._split`;
fuel `data.length` suffices when the chunk size is positive. -/
def chunksAux (cbs : Nat) : Nat → Bytes → List Bytes
  | _, [] => []
  | 0, _ => []
  | fuel + 1, l => l.take cbs :: chunksAux cbs fuel (l.drop cbs)

/-- `SpongeAEAD._split`: chunks of `cbs` bytes; a single empty chunk for
empty input. -/
def split (cbs : Nat) (data : Bytes) : List Bytes :=
  let r := chunksAux cbs data.length data
  if r.isEmpty then [[]] else r

/-- The key-feeding loop: `sponge.duplex(block, 0)` for each key chunk. -/
def feedKey {σ : Type} (ops : SpongeOps σ) (pad : Bytes → Nat → Option Nat → Bytes)
    (sbs : Nat) : σ → List Bytes → Except String σ
  | st, [] => .ok st
  | st, b :: rest =>
    match duplex ops pad sbs st b 0 none with
    | .error e => .error e
    | .ok (_, st1) => feedKey ops pad sbs st1 rest

/-- The duplex-call arguments used for every header chunk except the last:
`sponge.duplex(block + b'\x00', 0, len(block) * 8 + 1)`. -/
def headerDuplexArgs (block : Bytes) : Bytes × Nat × Option Nat :=
  (block ++ [0], 0, some (block.length * 8 + 1))

/-- The header-feeding loop over all chunks but the last. -/
def feedHeader {σ : Type} (ops : SpongeOps σ) (pad : Bytes → Nat → Option Nat → Bytes)
    (sbs : Nat) : σ → List Bytes → Except String σ
  | st, [] => .ok st
  | st, b :: rest =>
    match duplex ops pad sbs st (headerDuplexArgs b).1 (headerDuplexArgs b).2.1
        (headerDuplexArgs b).2.2 with
    | .error e => .error e
    | .ok (_, st1) => feedHeader ops pad sbs st1 rest

/-- `bytes(a ^ b for a, b in zip(block, res))`. -/
def xorZip (a b : Bytes) : Bytes := List.zipWith (fun x y => x ^^^ y) a b

/-- The encryption loop: duplex the previous plaintext block (tagged with a
trailing `1` bit), XOR the keystream into the current block, chain on the
plaintext block.  Returns ciphertext blocks, the final chaining block, and
the final state. -/
def encBlocks {σ : Type} (ops : SpongeOps σ) (pad : Bytes → Nat → Option Nat → Bytes)
    (sbs : Nat) : σ → Bytes → List Bytes → Except String (List Bytes × Bytes × σ)
  | st, last, [] => .ok ([], last, st)
  | st, last, b :: rest =>
    match duplex ops pad sbs st (last ++ [1]) b.length
        (some (last.length * 8 + 1)) with
    | .error e => .error e
    | .ok (res, st1) =>
      match encBlocks ops pad sbs st1 b rest with
      | .error e => .error e
      | .ok (cs, lastOut, stOut) => .ok (xorZip b res :: cs, lastOut, stOut)

/-- The decryption loop: identical keystream calls, chaining on the
decrypted blocks. -/
def decBlocks {σ : Type} (ops : SpongeOps σ) (pad : Bytes → Nat → Option Nat → Bytes)
    (sbs : Nat) : σ → Bytes → List Bytes → Except String (List Bytes × Bytes × σ)
  | st, last, [] => .ok ([], last, st)
  | st, last, c :: rest =>
    match duplex ops pad sbs st (last ++ [1]) c.length
        (some (last.length * 8 + 1)) with
    | .error e => .error e
    | .ok (res, st1) =>
      match decBlocks ops pad sbs st1 (xorZip c res) rest with
      | .error e => .error e
      | .ok (ps, lastOut, stOut) => .ok (xorZip c res :: ps, lastOut, stOut)

/-- The tag loop (`while tag_length < self._tag_length`); fuel
`tag_length + 1` suffices since each round emits at least one byte under
the well-formedness assumptions of the theorems. -/
def tagLoop {σ : Type} (ops : SpongeOps σ) (pad : Bytes → Nat → Option Nat → Bytes)
    (sbs cbs : Nat) : Nat → σ → Bytes → Nat → Nat → Except String (List Bytes × σ)
  | 0, _, _, _, _ => .error "while loop did not terminate"
  | fuel + 1, st, last, lastBitlen, remaining =>
    if remaining = 0 then .ok ([], st)
    else
      match duplex ops pad sbs st last (min cbs remaining) (some lastBitlen) with
      | .error e => .error e
      | .ok (res, st1) =>
        match tagLoop ops pad sbs cbs fuel st1 [0] 1 (remaining - res.length) with
        | .error e => .error e
        | .ok (ts, stOut) => .ok (res :: ts, stOut)

/-- `SpongeAEAD.encrypt_and_tag`. -/
def encrypt_and_tag {σ : Type} (ops : SpongeOps σ)
    (pad : Bytes → Nat → Option Nat → Bytes) (sbs cbs tagLen : Nat)
    (key header data : Bytes) : Except String (Bytes × Bytes) :=
  match feedKey ops pad sbs ops.newState (split cbs key) with
  | .error e => .error e
  | .ok st1 =>
    let hbs := split cbs header
    match feedHeader ops pad sbs st1 hbs.dropLast with
    | .error e => .error e
    | .ok st2 =>
      match encBlocks ops pad sbs st2 (hbs.getLastD []) (split cbs data) with
      | .error e => .error e
      | .ok (cts, lastB, st3) =>
        match tagLoop ops pad sbs cbs (tagLen + 1) st3 (lastB ++ [0])
            (lastB.length * 8 + 1) tagLen with
        | .error e => .error e
        | .ok (tags, _) => .ok (cts.flatten, tags.flatten)

/-- The part of `SpongeAEAD.decrypt_and_authenticate` before the tag
comparison: decrypted data and the recomputed tag. -/
def decryptCore {σ : Type} (ops : SpongeOps σ)
    (pad : Bytes → Nat → Option Nat → Bytes) (sbs cbs tagLen : Nat)
    (key header edata : Bytes) : Except String (Bytes × Bytes) :=
  match feedKey ops pad sbs ops.newState (split cbs key) with
  | .error e => .error e
  | .ok st1 =>
    let hbs := split cbs header
    match feedHeader ops pad sbs st1 hbs.dropLast with
    | .error e => .error e
    | .ok st2 =>
      match decBlocks ops pad sbs st2 (hbs.getLastD []) (split cbs edata) with
      | .error e => .error e
      | .ok (ps, lastB, st3) =>
        match tagLoop ops pad sbs cbs (tagLen + 1) st3 (lastB ++ [0])
            (lastB.length * 8 + 1) tagLen with
        | .error e => .error e
        | .ok (tags, _) => .ok (ps.flatten, tags.flatten)

/-- `SpongeAEAD.decrypt_and_authenticate`: recompute the tag, compare, and
only on equality return the decrypted bytes. -/
def decrypt_and_authenticate {σ : Type} (ops : SpongeOps σ)
    (pad : Bytes → Nat → Option Nat → Bytes) (sbs cbs tagLen : Nat)
    (key header edata tag : Bytes) : Except String Bytes :=
  match decryptCore ops pad sbs cbs tagLen key header edata with
  | .error e => .error e
  | .ok (pt, ctag) =>
    if tag ≠ ctag then .error "Tag does not match!"
    else .ok pt


/-! ## AEAD proof infrastructure -/

theorem duplex_ok_length {σ : Type} (ops : SpongeOps σ)
    (pad : Bytes → Nat → Option Nat → Bytes) (sbs : Nat)
    (hto : ∀ s, sbs ≤ (ops.toBytes s).length)
    (st : σ) (data : Bytes) (rb : Nat) (bl : Option Nat) (res : Bytes) (st' : σ)
    (hrb : rb ≤ sbs)
    (h : duplex ops pad sbs st data rb bl = .ok (res, st')) :
    res.length = rb := by
  simp only [duplex] at h
  rw [if_neg (by simpa using hrb)] at h
  by_cases hpl : ¬ (pad data sbs bl).length ≤ sbs
  · rw [if_pos hpl] at h
    simp at h
  · rw [if_neg hpl] at h
    cases hfb : ops.fromBytes st (pad data sbs bl) with
    | error e =>
      rw [hfb] at h
      simp at h
    | ok st1 =>
      rw [hfb] at h
      simp only [] at h
      by_cases hr0 : rb > 0
      · rw [if_pos hr0] at h
        simp only [Except.ok.injEq, Prod.mk.injEq] at h
        obtain ⟨h1, _⟩ := h
        rw [← h1, List.length_take]
        have := hto (ops.f st1)
        omega
      · rw [if_neg hr0] at h
        simp only [Except.ok.injEq, Prod.mk.injEq] at h
        obtain ⟨h1, _⟩ := h
        rw [← h1]
        simp only [List.length_nil]
        omega

theorem xorZip_length (a b : Bytes) : (xorZip a b).length = min a.length b.length := by
  simp [xorZip]

theorem xorZip_involution (a : Bytes) : ∀ r : Bytes, a.length ≤ r.length →
    xorZip (xorZip a r) r = a := by
  induction a with
  | nil => intro r _; rfl
  | cons x xs ih =>
    intro r h
    cases r with
    | nil => simp at h
    | cons y ys =>
      rw [show xorZip (x :: xs) (y :: ys) = (x ^^^ y) :: xorZip xs ys from rfl,
        show xorZip ((x ^^^ y) :: xorZip xs ys) (y :: ys)
          = ((x ^^^ y) ^^^ y) :: xorZip (xorZip xs ys) ys from rfl,
        Nat.xor_cancel_right, ih ys (by simpa using h)]

theorem chunksAux_nil (cbs : Nat) : ∀ fuel, chunksAux cbs fuel [] = [] := by
  intro fuel
  cases fuel <;> rfl

theorem chunksAux_cons (cbs fuel : Nat) (x : Nat) (xs : Bytes) :
    chunksAux cbs (fuel + 1) (x :: xs) =
      (x :: xs).take cbs :: chunksAux cbs fuel ((x :: xs).drop cbs) := rfl

theorem chunksAux_flatten (cbs : Nat) (hcbs : 1 ≤ cbs) :
    ∀ fuel l, l.length ≤ fuel → (chunksAux cbs fuel l).flatten = l := by
  intro fuel
  induction fuel with
  | zero =>
    intro l h
    cases l with
    | nil => rfl
    | cons x xs => simp at h
  | succ f ih =>
    intro l h
    cases l with
    | nil => rfl
    | cons x xs =>
      rw [chunksAux_cons]
      simp only [List.flatten_cons]
      rw [ih _ (by
        simp only [List.length_drop, List.length_cons] at h ⊢
        omega)]
      exact List.take_append_drop cbs (x :: xs)

/-- `split` restores its input on flattening. -/
theorem flatten_split (cbs : Nat) (hcbs : 1 ≤ cbs) (data : Bytes) :
    (split cbs data).flatten = data := by
  rw [split]
  have h := chunksAux_flatten cbs hcbs data.length data le_rfl
  split
  · rename_i hemp
    rw [List.isEmpty_iff] at hemp
    rw [hemp] at h
    simp at h
    simp [← h]
  · exact h

theorem chunksAux_mem_le (cbs : Nat) :
    ∀ fuel l b, b ∈ chunksAux cbs fuel l → b.length ≤ cbs := by
  intro fuel
  induction fuel with
  | zero =>
    intro l b hb
    cases l <;> simp [chunksAux] at hb
  | succ f ih =>
    intro l b hb
    cases l with
    | nil => simp [chunksAux] at hb
    | cons x xs =>
      rw [chunksAux_cons] at hb
      rcases List.mem_cons.mp hb with rfl | hb
      · exact List.length_take_le _ _
      · exact ih _ b hb

theorem split_mem_le (cbs : Nat) (data : Bytes) :
    ∀ b ∈ split cbs data, b.length ≤ cbs := by
  intro b hb
  rw [split] at hb
  split at hb
  · simp at hb
    simp [hb]
  · exact chunksAux_mem_le cbs _ _ b hb

/-- Shape of nonempty `_split` output: all chunks of exactly `cbs` bytes,
except a final chunk of between `1` and `cbs` bytes. -/
inductive ChunkedNE (cbs : Nat) : List Bytes → Prop
  | last (b : Bytes) (h1 : 1 ≤ b.length) (h2 : b.length ≤ cbs) : ChunkedNE cbs [b]
  | cons (b : Bytes) (rest : List Bytes) (hb : b.length = cbs)
      (hr : ChunkedNE cbs rest) : ChunkedNE cbs (b :: rest)

theorem chunkedNE_flatten_pos (cbs : Nat) :
    ∀ cs, ChunkedNE cbs cs → 1 ≤ cs.flatten.length := by
  intro cs h
  induction h with
  | last b h1 h2 => simpa using h1
  | cons b rest hb hr ihr =>
    simp only [List.flatten_cons, List.length_append]
    omega

theorem chunksAux_chunkedNE (cbs : Nat) (hcbs : 1 ≤ cbs) :
    ∀ fuel l, l ≠ [] → l.length ≤ fuel → ChunkedNE cbs (chunksAux cbs fuel l) := by
  intro fuel
  induction fuel with
  | zero =>
    intro l hne h
    cases l with
    | nil => exact absurd rfl hne
    | cons x xs => simp at h
  | succ f ih =>
    intro l hne h
    cases l with
    | nil => exact absurd rfl hne
    | cons x xs =>
      rw [chunksAux_cons]
      by_cases hd : (x :: xs).drop cbs = []
      · rw [hd, chunksAux_nil]
        refine ChunkedNE.last _ ?_ (List.length_take_le _ _)
        simp only [List.length_take]
        simp
        omega
      · have hlt : cbs < (x :: xs).length := by
          by_contra hc
          exact hd (List.drop_eq_nil_of_le (by omega))
        refine ChunkedNE.cons _ _ ?_ (ih _ hd ?_)
        · simp only [List.length_take]
          omega
        · simp only [List.length_drop]
          simp at h ⊢
          omega

theorem chunkedNE_of_profile (cbs : Nat) :
    ∀ bs cs, ChunkedNE cbs bs →
      cs.map List.length = bs.map List.length → ChunkedNE cbs cs := by
  intro bs cs h
  induction h generalizing cs with
  | last b h1 h2 =>
    intro hm
    cases cs with
    | nil => simp at hm
    | cons c cs' =>
      simp only [List.map_cons, List.map_nil, List.cons.injEq] at hm
      obtain ⟨hc, hcs'⟩ := hm
      rw [List.map_eq_nil_iff] at hcs'
      subst hcs'
      exact ChunkedNE.last c (by omega) (by omega)
  | cons b rest hb hr ihr =>
    intro hm
    cases cs with
    | nil => simp at hm
    | cons c cs' =>
      simp only [List.map_cons, List.cons.injEq] at hm
      obtain ⟨hc, hcs'⟩ := hm
      exact ChunkedNE.cons c cs' (by omega) (ihr cs' hcs')

theorem chunkedNE_chunksAux (cbs : Nat) (hcbs : 1 ≤ cbs) :
    ∀ cs, ChunkedNE cbs cs → ∀ fuel, cs.flatten.length ≤ fuel →
      chunksAux cbs fuel cs.flatten = cs := by
  intro cs h
  induction h with
  | last b h1 h2 =>
    intro fuel hf
    simp only [List.flatten_cons, List.flatten_nil, List.append_nil] at hf ⊢
    obtain ⟨f, rfl⟩ : ∃ f, fuel = f + 1 := ⟨fuel - 1, by omega⟩
    cases b with
    | nil => simp at h1
    | cons x xs =>
      rw [chunksAux_cons, List.take_of_length_le h2, List.drop_eq_nil_of_le h2,
        chunksAux_nil]
  | cons b rest hb hr ihr =>
    intro fuel hf
    have hrpos := chunkedNE_flatten_pos cbs rest hr
    simp only [List.flatten_cons, List.length_append] at hf ⊢
    obtain ⟨f, rfl⟩ : ∃ f, fuel = f + 1 := ⟨fuel - 1, by omega⟩
    cases b with
    | nil =>
      simp at hb
      omega
    | cons x xs =>
      rw [show (x :: xs) ++ rest.flatten = x :: (xs ++ rest.flatten) by simp,
        chunksAux_cons,
        show x :: (xs ++ rest.flatten) = (x :: xs) ++ rest.flatten by simp,
        List.take_left' hb, List.drop_left' hb,
        ihr f (by simp only [List.length_cons] at hf; omega)]

theorem split_nil (cbs : Nat) : split cbs [] = [[]] := by
  rw [split, List.length_nil, chunksAux_nil]
  rfl

theorem split_of_chunkedNE (cbs : Nat) (hcbs : 1 ≤ cbs) (cs : List Bytes)
    (h : ChunkedNE cbs cs) : split cbs cs.flatten = cs := by
  rw [split]
  have hc := chunkedNE_chunksAux cbs hcbs cs h cs.flatten.length le_rfl
  rw [hc]
  have hne : cs.isEmpty = false := by cases h <;> rfl
  rw [hne]
  rfl

theorem chunkedNE_not_nil (cbs : Nat) :
    ∀ l, ChunkedNE cbs l → l.isEmpty = false := by
  intro l hl
  cases hl <;> rfl

theorem split_shape (cbs : Nat) (hcbs : 1 ≤ cbs) (data : Bytes) :
    split cbs data = [[]] ∨ ChunkedNE cbs (split cbs data) := by
  cases data with
  | nil => exact Or.inl (split_nil cbs)
  | cons x xs =>
    right
    rw [split]
    have hch := chunksAux_chunkedNE cbs hcbs (x :: xs).length (x :: xs)
      (by simp) le_rfl
    rw [chunkedNE_not_nil cbs _ hch]
    simpa using hch

theorem split_flatten_of_profile (cbs : Nat) (hcbs : 1 ≤ cbs) (data : Bytes)
    (cs : List Bytes)
    (hm : cs.map List.length = (split cbs data).map List.length) :
    split cbs cs.flatten = cs := by
  rcases split_shape cbs hcbs data with hs | hs
  · rw [hs] at hm
    cases cs with
    | nil => simp at hm
    | cons c cs' =>
      simp only [List.map_cons, List.map_nil, List.length_nil,
        List.cons.injEq] at hm
      obtain ⟨hc, hcs'⟩ := hm
      rw [List.map_eq_nil_iff] at hcs'
      rw [List.length_eq_zero] at hc
      subst hc hcs'
      simp only [List.flatten_cons, List.flatten_nil, List.append_nil]
      exact split_nil cbs
  · exact split_of_chunkedNE cbs hcbs cs (chunkedNE_of_profile cbs _ cs hs hm)


/-- Decryption inverts encryption block-by-block: the keystream calls agree
and XOR is involutive, so the chaining blocks and states coincide. -/
theorem decBlocks_encBlocks {σ : Type} (ops : SpongeOps σ)
    (pad : Bytes → Nat → Option Nat → Bytes) (sbs cbs : Nat)
    (hcs : cbs < sbs) (hto : ∀ s, sbs ≤ (ops.toBytes s).length) :
    ∀ (blocks : List Bytes) (st : σ) (last : Bytes) (cs : List Bytes)
      (lastOut : Bytes) (stOut : σ),
      (∀ b ∈ blocks, b.length ≤ cbs) →
      encBlocks ops pad sbs st last blocks = .ok (cs, lastOut, stOut) →
      decBlocks ops pad sbs st last cs = .ok (blocks, lastOut, stOut) ∧
        cs.map List.length = blocks.map List.length := by
  intro blocks
  induction blocks with
  | nil =>
    intro st last cs lastOut stOut _ henc
    rw [encBlocks] at henc
    simp only [Except.ok.injEq, Prod.mk.injEq] at henc
    obtain ⟨h1, h2, h3⟩ := henc
    subst h1 h2 h3
    exact ⟨rfl, rfl⟩
  | cons b rest ih =>
    intro st last cs lastOut stOut hlen henc
    rw [encBlocks] at henc
    cases hd : duplex ops pad sbs st (last ++ [1]) b.length
        (some (last.length * 8 + 1)) with
    | error e => rw [hd] at henc; simp at henc
    | ok p =>
      obtain ⟨res, st1⟩ := p
      rw [hd] at henc
      simp only [] at henc
      cases he : encBlocks ops pad sbs st1 b rest with
      | error e => rw [he] at henc; simp at henc
      | ok q =>
        obtain ⟨cs', lastOut', stOut'⟩ := q
        rw [he] at henc
        simp only [Except.ok.injEq, Prod.mk.injEq] at henc
        obtain ⟨hcs1, hlo, hso⟩ := henc
        subst hlo hso
        have hreslen : res.length = b.length :=
          duplex_ok_length ops pad sbs hto st _ _ _ res st1
            (le_of_lt (lt_of_le_of_lt (hlen b (by simp)) hcs)) hd
        have hblen : (xorZip b res).length = b.length := by
          rw [xorZip_length, hreslen]
          omega
        obtain ⟨hdec, hprof⟩ :=
          ih st1 b cs' lastOut' stOut' (fun b' hb' => hlen b' (by simp [hb'])) he
        subst hcs1
        refine ⟨?_, by simp [hblen, hprof]⟩
        rw [decBlocks, hblen, hd]
        simp only []
        rw [xorZip_involution b res (by rw [hreslen]), hdec]
  
/-- The computation of `decrypt_and_authenticate` before the tag comparison
inverts `encrypt_and_tag` and recomputes the identical tag. -/
theorem decryptCore_encrypt {σ : Type} (ops : SpongeOps σ)
    (pad : Bytes → Nat → Option Nat → Bytes) (sbs cbs tagLen : Nat)
    (key header data ct tag : Bytes)
    (hcbs : 1 ≤ cbs) (hcs : cbs < sbs)
    (hto : ∀ s, sbs ≤ (ops.toBytes s).length)
    (henc : encrypt_and_tag ops pad sbs cbs tagLen key header data
      = .ok (ct, tag)) :
    decryptCore ops pad sbs cbs tagLen key header ct = .ok (data, tag) := by
  rw [encrypt_and_tag] at henc
  cases hk : feedKey ops pad sbs ops.newState (split cbs key) with
  | error e => rw [hk] at henc; simp at henc
  | ok st1 =>
    rw [hk] at henc
    simp only [] at henc
    cases hh : feedHeader ops pad sbs st1 (split cbs header).dropLast with
    | error e => rw [hh] at henc; simp at henc
    | ok st2 =>
      rw [hh] at henc
      simp only [] at henc
      cases he : encBlocks ops pad sbs st2 ((split cbs header).getLastD [])
          (split cbs data) with
      | error e => rw [he] at henc; simp at henc
      | ok q =>
        obtain ⟨cts, lastB, st3⟩ := q
        rw [he] at henc
        simp only [] at henc
        cases ht : tagLoop ops pad sbs cbs (tagLen + 1) st3 (lastB ++ [0])
            (lastB.length * 8 + 1) tagLen with
        | error e => rw [ht] at henc; simp at henc
        | ok r =>
          obtain ⟨tags, stF⟩ := r
          rw [ht] at henc
          simp only [Except.ok.injEq, Prod.mk.injEq] at henc
          obtain ⟨hct, htag⟩ := henc
          obtain ⟨hdec, hprof⟩ := decBlocks_encBlocks ops pad sbs cbs hcs hto
            (split cbs data) st2 ((split cbs header).getLastD []) cts lastB st3
            (split_mem_le cbs data) he
          have hsplit : split cbs cts.flatten = cts :=
            split_flatten_of_profile cbs hcbs data cts hprof
          rw [decryptCore, hk]
          simp only []
          rw [hh]
          simp only []
          rw [← hct, hsplit, hdec]
          simp only []
          rw [ht]
          simp only []
          rw [flatten_split cbs hcbs data, htag]


/-! ## Claims C1, C3, C5 -/

/-- C1: AEAD round trip.  For any sponge operations whose `to_bytes` yields
at least `sponge_blocksize` bytes (as Keccak's does), any padding function,
any positive cipher blocksize below the sponge blocksize (the constructor's
`assert`), and all byte strings `key`, `header`, `data` (including empty
ones): if `encrypt_and_tag` returns `(ct, tag)`, then
`decrypt_and_authenticate` on `(ct, tag)` returns exactly `data` without
raising. -/
theorem aead_round_trip {σ : Type} (ops : SpongeOps σ)
    (pad : Bytes → Nat → Option Nat → Bytes) (sbs cbs tagLen : Nat)
    (key header data ct tag : Bytes)
    (hcbs : 1 ≤ cbs) (hcs : cbs < sbs)
    (hto : ∀ s, sbs ≤ (ops.toBytes s).length)
    (henc : encrypt_and_tag ops pad sbs cbs tagLen key header data
      = .ok (ct, tag)) :
    decrypt_and_authenticate ops pad sbs cbs tagLen key header ct tag
      = .ok data := by
  rw [decrypt_and_authenticate,
    decryptCore_encrypt ops pad sbs cbs tagLen key header data ct tag
      hcbs hcs hto henc]
  simp

/-- Trivial sponge operations over a unit state, used to instantiate the
generic AEAD and hash theorems at concrete inputs. -/
def unitOps : SpongeOps Unit :=
  { newState := ()
    fromBytes := fun _ _ => .ok ()
    toBytes := fun _ => [7, 13]
    f := id }

/-- C1 witness: the round trip at concrete inputs. -/
theorem aead_round_trip_witness :
    decrypt_and_authenticate unitOps add_10star1_padding 2 1 3
      [5] [7, 9] [6, 5, 4] [7, 7, 7] = .ok [1, 2, 3] :=
  aead_round_trip unitOps add_10star1_padding 2 1 3 [5] [7, 9] [1, 2, 3]
    [6, 5, 4] [7, 7, 7] (by norm_num) (by norm_num) (fun _ => by simp [unitOps]) rfl

/-- C3: tamper sensitivity of the tag.  Under the same well-formedness
assumptions as the round trip: if `encrypt_and_tag` returned `(ct, tag)`
and `tag'` differs from `tag` (in particular any same-length string
differing in at least one bit), then `decrypt_and_authenticate` with
`tag'` raises the authentication error, returning no plaintext. -/
theorem aead_tag_mismatch {σ : Type} (ops : SpongeOps σ)
    (pad : Bytes → Nat → Option Nat → Bytes) (sbs cbs tagLen : Nat)
    (key header data ct tag tag' : Bytes)
    (hcbs : 1 ≤ cbs) (hcs : cbs < sbs)
    (hto : ∀ s, sbs ≤ (ops.toBytes s).length)
    (henc : encrypt_and_tag ops pad sbs cbs tagLen key header data
      = .ok (ct, tag))
    (hne : tag' ≠ tag) :
    decrypt_and_authenticate ops pad sbs cbs tagLen key header ct tag'
      = .error "Tag does not match!" := by
  rw [decrypt_and_authenticate,
    decryptCore_encrypt ops pad sbs cbs tagLen key header data ct tag
      hcbs hcs hto henc]
  simp only []
  rw [if_pos hne]

/-- C3 witness: a flipped-bit tag is rejected at concrete inputs. -/
theorem aead_tag_mismatch_witness :
    decrypt_and_authenticate unitOps add_10star1_padding 2 1 3
      [5] [7, 9] [6, 5, 4] [7, 7, 6] = .error "Tag does not match!" :=
  aead_tag_mismatch unitOps add_10star1_padding 2 1 3 [5] [7, 9] [1, 2, 3]
    [6, 5, 4] [7, 7, 7] [7, 7, 6] (by norm_num) (by norm_num)
    (fun _ => by simp [unitOps]) rfl (by decide)

/-- C5 (corrected): every header chunk except the last is duplexed with
zero output bytes and input bit length `8·len(chunk) + 1`: the chunk's own
bits followed by one trailing domain-separation bit.  That trailing bit —
bit `8·len(chunk)` of `chunk ++ [0x00]`, little-endian bit order — has
value `0`, not `1`. -/
theorem header_chunk_domain_bit (block : Bytes) :
    (headerDuplexArgs block).2.1 = 0 ∧
    (headerDuplexArgs block).2.2 = some (block.length * 8 + 1) ∧
    ((headerDuplexArgs block).1.getD block.length 0).testBit 0 = false := by
  refine ⟨rfl, rfl, ?_⟩
  rw [headerDuplexArgs]
  simp only []
  rw [getD_concat block 0 block.length rfl]
  simp

/-- C5 counterexample: for the header chunk `[0xAA, 0xBB]` the duplex call
is on data `[0xAA, 0xBB, 0x00]` with input bit length `17`; the appended
seventeenth bit (bit `16`) is `0`, contradicting the claim that it is `1`. -/
theorem header_chunk_domain_bit_not_one :
    headerDuplexArgs [170, 187] = ([170, 187, 0], 0, some 17) ∧
    ¬ (([170, 187, 0] : Bytes).getD 2 0).testBit 0 = true := by
  exact ⟨rfl, by decide⟩


/-! ## sponge_crypto.py : SpongeHash (claims C6, C10) -/

/-- `Sponge.absorb` (sponge.py): XOR a block into the state and permute. -/
def spongeAbsorb {σ : Type} (ops : SpongeOps σ) (blocksize : Nat) (st : σ)
    (data : Bytes) : Except String σ :=
  if ¬ data.length ≤ blocksize then .error "assert len(data) <= self._blocksize"
  else
    match ops.fromBytes st data with
    | .error e => .error e
    | .ok st1 => .ok (ops.f st1)

/-- `Sponge.squeeze` (sponge.py). -/
def spongeSqueeze {σ : Type} (ops : SpongeOps σ) (blocksize : Nat) (st : σ) :
    Bytes × σ :=
  ((ops.toBytes st).take blocksize, ops.f st)

/-- The mutable fields of a `SpongeHash` object. -/
structure SpongeHashState (σ : Type) where
  sponge : σ
  buffer : Bytes
  absorbing : Bool

/-- `SpongeHash._process_buffer`: absorb all whole blocks of the buffer and
keep the remainder.  Fuel `buffer.length + 1` suffices for a positive
blocksize. -/
def processBuffer {σ : Type} (ops : SpongeOps σ) (blocksize : Nat) :
    Nat → σ → Bytes → Except String (σ × Bytes)
  | 0, st, buf =>
      if buf.length < blocksize then .ok (st, buf)
      else .error "loop fuel exhausted"
  | fuel + 1, st, buf =>
      if buf.length < blocksize then .ok (st, buf)
      else
        match spongeAbsorb ops blocksize st (buf.take blocksize) with
        | .error e => .error e
        | .ok st1 => processBuffer ops blocksize fuel st1 (buf.drop blocksize)

/-- `SpongeHash.absorb`: asserts the session is still absorbing, appends to
the buffer, and flushes whole blocks. -/
def hashAbsorb {σ : Type} (ops : SpongeOps σ) (blocksize : Nat)
    (h : SpongeHashState σ) (data : Bytes) :
    Except String (SpongeHashState σ) :=
  if h.absorbing = false then .error "assert self._absorbing"
  else
    let buf := h.buffer ++ data
    if blocksize ≤ buf.length then
      match processBuffer ops blocksize (buf.length + 1) h.sponge buf with
      | .error e => .error e
      | .ok (st1, buf1) => .ok ⟨st1, buf1, h.absorbing⟩
    else .ok ⟨h.sponge, buf, h.absorbing⟩

/-- `SpongeHash.final_absorb`: pads the remaining buffer and flips the
phase flag.  The source performs no phase `assert` here. -/
def hashFinalAbsorb {σ : Type} (ops : SpongeOps σ) (blocksize : Nat)
    (pad : Bytes → Nat → Option Nat → Bytes) (h : SpongeHashState σ)
    (data : Bytes) (bitlength : Option Nat) :
    Except String (SpongeHashState σ) :=
  let bl := bitlength.getD (data.length * 8) + h.buffer.length * 8
  let buf := pad (h.buffer ++ data) blocksize (some bl)
  match processBuffer ops blocksize (buf.length + 1) h.sponge buf with
  | .error e => .error e
  | .ok (st1, buf1) =>
    if ¬ buf1.length = 0 then .error "assert len(self._buffer) == 0"
    else .ok ⟨st1, buf1, false⟩

/-- The `while result_len < number_of_bytes` squeeze loop; fuel
`number_of_bytes + 1` suffices for a positive blocksize. -/
def squeezeLoop {σ : Type} (ops : SpongeOps σ) (blocksize : Nat) :
    Nat → σ → Nat → Nat → Except String (List Bytes × Nat × σ)
  | 0, _, _, _ => .error "while loop did not terminate"
  | fuel + 1, st, result_len, n =>
    if ¬ result_len < n then .ok ([], result_len, st)
    else
      match spongeSqueeze ops blocksize st with
      | (blk, st1) =>
        match squeezeLoop ops blocksize fuel st1 (result_len + blocksize) n with
        | .error e => .error e
        | .ok (blks, rl, stOut) => .ok (blk :: blks, rl, stOut)

/-- `SpongeHash.squeeze`: asserts the absorbing phase is over, then
squeezes block-wise and truncates the final block. -/
def hashSqueeze {σ : Type} (ops : SpongeOps σ) (blocksize : Nat)
    (h : SpongeHashState σ) (number_of_bytes : Option Nat) :
    Except String (Bytes × SpongeHashState σ) :=
  if h.absorbing = true then .error "assert not self._absorbing"
  else
    let n := number_of_bytes.getD blocksize
    match squeezeLoop ops blocksize (n + 1) h.sponge 0 n with
    | .error e => .error e
    | .ok (blks, result_len, st1) =>
      let blks1 :=
        if result_len > n then
          blks.dropLast ++
            [(blks.getLastD []).take ((blks.getLastD []).length - (result_len - n))]
        else blks
      .ok (blks1.flatten, ⟨st1, h.buffer, h.absorbing⟩)

/-- `SpongeHash.clone`: builds a copy of the sponge but falls through
without a `return` statement.  The first component is the
constructed-and-discarded object, the second the actual return value
(`None`). -/
def hashClone {σ : Type} (h : SpongeHashState σ) :
    SpongeHashState σ × Option (SpongeHashState σ) :=
  ({ sponge := h.sponge, buffer := [], absorbing := true }, none)

/-- C6 (corrected): `absorb` raises (`assert self._absorbing`) once the
phase has flipped to squeezing, and `squeeze` raises
(`assert not self._absorbing`) while still absorbing; but `final_absorb`
performs no phase check at all — its result does not depend on the
`absorbing` flag, so calling it after the flip does not raise. -/
theorem sponge_hash_phase_checks {σ : Type} (ops : SpongeOps σ)
    (blocksize : Nat) (pad : Bytes → Nat → Option Nat → Bytes)
    (h : SpongeHashState σ) (data : Bytes) (bitlength : Option Nat)
    (n : Option Nat) :
    (h.absorbing = false →
      hashAbsorb ops blocksize h data = .error "assert self._absorbing") ∧
    (h.absorbing = true →
      hashSqueeze ops blocksize h n = .error "assert not self._absorbing") ∧
    (∀ b : Bool,
      hashFinalAbsorb ops blocksize pad { h with absorbing := b } data bitlength
        = hashFinalAbsorb ops blocksize pad h data bitlength) := by
  refine ⟨fun hf => by rw [hashAbsorb, if_pos hf],
    fun ht => by rw [hashSqueeze, if_pos ht],
    fun b => rfl⟩

/-- C6 witness: `absorb` on a squeezing-phase session raises. -/
theorem sponge_hash_phase_checks_witness :
    hashAbsorb unitOps 2 ⟨(), [], false⟩ [5] = .error "assert self._absorbing" :=
  (sponge_hash_phase_checks unitOps 2 add_10star1_padding ⟨(), [], false⟩
    [5] none none).1 rfl

/-- C6 counterexample: `final_absorb` does not raise after the phase flip —
on a squeezing-phase session it completes successfully. -/
theorem final_absorb_after_flip_succeeds :
    hashFinalAbsorb unitOps 2 add_10star1_padding ⟨(), [], false⟩ [] none
      = .ok ⟨(), [], false⟩ := rfl

/-- C10: `clone` returns `None` instead of the constructed copy, and that
copy had received a clone of the sponge state but a fresh empty buffer and
a fresh `absorbing = True` flag, not copies of the session's. -/
theorem sponge_hash_clone_returns_none {σ : Type} (h : SpongeHashState σ) :
    hashClone h =
      ({ sponge := h.sponge, buffer := [], absorbing := true }, none) := rfl


/-! ## utils.py / keccak.py / sha3.py : the Keccak-f permutation (C4, C8) -/

/-- `ROL(value, offset, bitsize)` (utils.py). -/
def ROL (value offset bitsize : Nat) : Nat :=
  ((value <<< offset) &&& (2 ^ bitsize - 1)) ||| (value >>> (bitsize - offset))

/-- `lanes[x][y]` with the source's x-major indexing. -/
def laneGet (lanes : List (List Nat)) (x y : Nat) : Nat :=
  (lanes.getD x []).getD y 0

/-- `lanes[x][y] = v`. -/
def setLane (lanes : List (List Nat)) (x y : Nat) (v : Nat) :
    List (List Nat) :=
  lanes.set x ((lanes.getD x []).set y v)

/-- One step of the 2x2 matrix product mod `m` in `compute_t_matrix`. -/
def tMatMul (a b : (Int × Int) × (Int × Int)) (m : Int) :
    (Int × Int) × (Int × Int) :=
  (((a.1.1 * b.1.1 + a.1.2 * b.2.1) % m, (a.1.1 * b.1.2 + a.1.2 * b.2.2) % m),
   ((a.2.1 * b.1.1 + a.2.2 * b.2.1) % m, (a.2.1 * b.1.2 + a.2.2 * b.2.2) % m))

/-- `mat[x][y] = v` on the 5x5 `Int` matrix. -/
def setMat (mat : List (List Int)) (x y : Nat) (v : Int) : List (List Int) :=
  mat.set x ((mat.getD x []).set y v)

/-- The `for t in range(24)` loop of `compute_t_matrix`. -/
def tMatrixAux (A : (Int × Int) × (Int × Int)) :
    Nat → Nat → ((Int × Int) × (Int × Int)) → List (List Int) →
      List (List Int)
  | 0, _, _, result => result
  | fuel + 1, t, B, result =>
      tMatrixAux A fuel (t + 1) (tMatMul B A 5)
        (setMat result (B.1.1).toNat (B.2.1).toNat (t : Int))

/-- `compute_t_matrix()` (keccak.py). -/
def compute_t_matrix : List (List Int) :=
  tMatrixAux ((0, 1), (2, 3)) 24 0 ((1, 0), (0, 1))
    (List.replicate 5 (List.replicate 5 (-1)))

/-- One LFSR step plus emitted bit of `compute_rc`. -/
def compute_rc_aux : Nat → List Nat → List Nat
  | 0, _ => []
  | fuel + 1, intermediate =>
      let last_bit := intermediate.getLastD 0
      let inter := 0 :: intermediate.dropLast
      let inter :=
        if last_bit ≠ 0 then
          (((inter.set 0 ((inter.getD 0 0) ^^^ 1)).set 4
            ((inter.getD 4 0) ^^^ 1)).set 5 ((inter.getD 5 0) ^^^ 1)).set 6
            ((inter.getD 6 0) ^^^ 1)
        else inter
      inter.getD 0 0 :: compute_rc_aux fuel inter

/-- `compute_rc(count)` (keccak.py). -/
def compute_rc (count : Nat) : List Nat :=
  1 :: compute_rc_aux count [1, 0, 0, 0, 0, 0, 0, 0]

/-- `KeccakF._theta`; `w = 2^ell` is the lane width. -/
def theta (w : Nat) (lanes : List (List Nat)) : List (List Nat) :=
  (List.range 5).map fun x => (List.range 5).map fun y =>
    (List.range 5).foldl
      (fun v yy => (v ^^^ laneGet lanes ((x + 4) % 5) yy) ^^^
        ROL (laneGet lanes ((x + 1) % 5) yy) 1 w)
      (laneGet lanes x y)

/-- `KeccakF._rho`. -/
def rhoStep (ell : Nat) (tmat : List (List Int)) (lanes : List (List Nat)) :
    List (List Nat) :=
  (List.range 5).map fun x => (List.range 5).map fun y =>
    let t := (tmat.getD x []).getD y (-1)
    let dt := (((t + 1) * (t + 2)) / 2).toNat &&& (2 ^ ell - 1)
    let v := laneGet lanes x y
    if dt ≠ 0 then ROL v dt (2 ^ ell) else v

/-- `KeccakF._pi`. -/
def piStep (lanes : List (List Nat)) : List (List Nat) :=
  (List.range 5).map fun x => (List.range 5).map fun y =>
    laneGet lanes ((x + 3 * y) % 5) x

/-- `KeccakF._chi`. -/
def chiStep (lanes : List (List Nat)) : List (List Nat) :=
  (List.range 5).map fun x => (List.range 5).map fun y =>
    (laneGet lanes x y ^^^
      (laneGet lanes ((x + 1) % 5) y &&& laneGet lanes ((x + 2) % 5) y)) ^^^
      laneGet lanes ((x + 2) % 5) y

/-- `KeccakF._iota`. -/
def iotaStep (ell : Nat) (rc : List Nat) (lanes : List (List Nat)) (i : Nat) :
    List (List Nat) :=
  (List.range (ell + 1)).foldl
    (fun ls j =>
      if rc.getD (j + 7 * i) 0 ≠ 0 then
        setLane ls 0 0 (laneGet ls 0 0 ^^^ (1 <<< ((1 <<< j) - 1)))
      else ls)
    lanes

/-- `KeccakF.__call__`: `n = 12 + 2·ell` rounds of theta-rho-pi-chi-iota. -/
def keccakF (ell : Nat) (lanes : List (List Nat)) : List (List Nat) :=
  let n := 12 + 2 * ell
  let rc := compute_rc (ell + 7 * n + 1)
  let tmat := compute_t_matrix
  (List.range n).foldl
    (fun ls i =>
      iotaStep ell rc (chiStep (piStep (rhoStep ell tmat (theta (2 ^ ell) ls)))) i)
    lanes

/-- Python `int.from_bytes(l, byteorder='little')`. -/
def fromBytesLE (l : Bytes) : Nat := l.foldr (fun b acc => acc * 256 + b) 0

/-- Python `v.to_bytes(len, byteorder='little')` (truncating model; call
sites keep `v < 2^(8·len)`). -/
def toBytesLE (len v : Nat) : Bytes :=
  (List.range len).map fun i => (v >>> (8 * i)) &&& 255

/-- `KeccakFState._add_to_state`: XOR the byte string into the lanes,
little-endian per lane, y-major lane order. -/
def keccakAdd (ell : Nat) (lanes : List (List Nat)) (value : Bytes) :
    List (List Nat) :=
  (List.range 5).map fun x => (List.range 5).map fun y =>
    laneGet lanes x y ^^^
      fromBytesLE ((value.drop ((5 * y + x) * 2 ^ (ell - 3))).take (2 ^ (ell - 3)))

/-- `KeccakFState.from_bytes`: raises on oversized input, zero-extends. -/
def keccakFromBytes (ell : Nat) (lanes : List (List Nat)) (value : Bytes) :
    Except String (List (List Nat)) :=
  let b_bytes := (25 * 2 ^ ell + 7) / 8
  if value.length > b_bytes then
    .error "Cannot initialize Keccak-f state with more bytes"
  else
    .ok (keccakAdd ell lanes (value ++ List.replicate (b_bytes - value.length) 0))

/-- `KeccakFState.to_bytes`. -/
def keccakToBytes (ell : Nat) (lanes : List (List Nat)) : Bytes :=
  ((List.range 5).map fun y =>
    ((List.range 5).map fun x => toBytesLE (2 ^ (ell - 3)) (laneGet lanes x y)).flatten).flatten

/-- The Keccak-f instance as sponge operations (`KeccakF` + `KeccakFState`). -/
def keccakOps (ell : Nat) : SpongeOps (List (List Nat)) :=
  { newState := List.replicate 5 (List.replicate 5 0)
    fromBytes := keccakFromBytes ell
    toBytes := keccakToBytes ell
    f := keccakF ell }

/-- `sha_3_256` (sha3.py): `SpongeHash(KeccakF(6), 136, add_10star1_padding)`,
absorb the message, `final_absorb(b'\x02', 2)`, squeeze 32 bytes. -/
def sha_3_256 (msg : Bytes) : Except String Bytes :=
  match hashAbsorb (keccakOps 6) 136 ⟨(keccakOps 6).newState, [], true⟩ msg with
  | .error e => .error e
  | .ok h1 =>
    match hashFinalAbsorb (keccakOps 6) 136 add_10star1_padding h1 [2] (some 2) with
    | .error e => .error e
    | .ok h2 =>
      match hashSqueeze (keccakOps 6) 136 h2 (some 32) with
      | .error e => .error e
      | .ok (result, _) => .ok result

/-- The orbit of `(1,0)` under the linear map `(x,y) ↦ (y, 2x+3y) mod 5`. -/
def orbitPoint : Nat → Nat × Nat
  | 0 => (1, 0)
  | t + 1 =>
      ((orbitPoint t).2 % 5, (2 * (orbitPoint t).1 + 3 * (orbitPoint t).2) % 5)


set_option maxRecDepth 100000 in
/-- C4: with `ℓ = 6` and rate 1088 bits (136 bytes), the SHA-3-256
construction applied to the empty byte string and squeezed to 32 bytes
yields the standard SHA-3-256 digest of the empty string,
`a7ffc6f8bf1ed76651c14756a061d662f580ff4de43b49fa82d80a4b80f8434a`. -/
theorem sha3_256_empty_kat :
    sha_3_256 [] = .ok [0xa7, 0xff, 0xc6, 0xf8, 0xbf, 0x1e, 0xd7, 0x66,
      0x51, 0xc1, 0x47, 0x56, 0xa0, 0x61, 0xd6, 0x62,
      0xf5, 0x80, 0xff, 0x4d, 0xe4, 0x3b, 0x49, 0xfa,
      0x82, 0xd8, 0x0a, 0x4b, 0x80, 0xf8, 0x43, 0x4a] := rfl


theorem laneGet_rangeMap (f : Nat → Nat → Nat) (x y : Nat) (hx : x < 5)
    (hy : y < 5) :
    laneGet ((List.range 5).map fun i => (List.range 5).map fun j => f i j) x y
      = f x y := by
  interval_cases x <;> interval_cases y <;> rfl

theorem orbitPoint_lt (t : Nat) : (orbitPoint t).1 < 5 ∧ (orbitPoint t).2 < 5 := by
  cases t with
  | zero => exact ⟨by decide, by decide⟩
  | succ k =>
    exact ⟨Nat.mod_lt _ (by norm_num), Nat.mod_lt _ (by norm_num)⟩

theorem tmatrix_orbit : ∀ t, t < 24 →
    (compute_t_matrix.getD (orbitPoint t).1 []).getD (orbitPoint t).2 (-1)
      = (t : Int) := by decide

/-- The rho step at a coordinate whose precomputed table entry is the
nonnegative value `tv`. -/
theorem rho_entry (ell : Nat) (lanes : List (List Nat)) (x y : Nat) (tv : Int)
    (hx : x < 5) (hy : y < 5)
    (hentry : (compute_t_matrix.getD x []).getD y (-1) = tv) (htv : 0 ≤ tv) :
    laneGet (rhoStep ell compute_t_matrix lanes) x y =
      (if (tv.toNat + 1) * (tv.toNat + 2) / 2 % 2 ^ ell = 0 then
        laneGet lanes x y
      else
        ROL (laneGet lanes x y) ((tv.toNat + 1) * (tv.toNat + 2) / 2 % 2 ^ ell)
          (2 ^ ell)) := by
  rw [rhoStep, laneGet_rangeMap _ x y hx hy]
  simp only []
  rw [hentry]
  obtain ⟨n, rfl⟩ := Int.eq_ofNat_of_zero_le htv
  simp only [Int.toNat_natCast]
  have hdiv : ((((n : Int) + 1) * ((n : Int) + 2)) / 2).toNat
      = (n + 1) * (n + 2) / 2 := by
    rw [show ((n : Int) + 1) * ((n : Int) + 2)
        = (((n + 1) * (n + 2) : Nat) : Int) by push_cast; ring]
    obtain ⟨m, hm⟩ : ∃ m, (n + 1) * (n + 2) = m := ⟨_, rfl⟩
    rw [hm]
    omega
  rw [hdiv, show (2 : Nat) ^ ell - 1 = 1 <<< ell - 1 by rw [Nat.one_shiftLeft],
    and_mask_eq_mod]
  by_cases hz : (n + 1) * (n + 2) / 2 % 2 ^ ell = 0
  · rw [if_neg (by simp [hz]), if_pos hz]
  · rw [if_pos hz, if_neg hz]

/-- C8: `compute_t_matrix` stores at each lane coordinate other than
`(0,0)` the unique `t < 24` with `(x,y)` the `t`-th image of `(1,0)` under
`(x,y) ↦ (y, 2x+3y) mod 5`, and the rho step rotates that lane left by
`((t+1)(t+2)/2) mod 2^ℓ` bits (skipping the rotation call when the offset
is `0`), while lane `(0,0)` is returned unrotated. -/
theorem keccak_rho_offsets :
    (∀ t1, t1 < 24 → ∀ t2, t2 < 24 → orbitPoint t1 = orbitPoint t2 → t1 = t2)
    ∧ (∀ x, x < 5 → ∀ y, y < 5 → ¬(x = 0 ∧ y = 0) →
        ∃ t, t < 24 ∧ orbitPoint t = (x, y))
    ∧ (∀ t, t < 24 →
        (compute_t_matrix.getD (orbitPoint t).1 []).getD (orbitPoint t).2 (-1)
          = (t : Int))
    ∧ (∀ ell lanes t, t < 24 →
        laneGet (rhoStep ell compute_t_matrix lanes)
            (orbitPoint t).1 (orbitPoint t).2 =
          (if (t + 1) * (t + 2) / 2 % 2 ^ ell = 0 then
            laneGet lanes (orbitPoint t).1 (orbitPoint t).2
          else
            ROL (laneGet lanes (orbitPoint t).1 (orbitPoint t).2)
              ((t + 1) * (t + 2) / 2 % 2 ^ ell) (2 ^ ell)))
    ∧ (∀ ell lanes, laneGet (rhoStep ell compute_t_matrix lanes) 0 0
        = laneGet lanes 0 0) := by
  refine ⟨by decide, by decide, tmatrix_orbit, ?_, ?_⟩
  · intro ell lanes t ht
    have hb := orbitPoint_lt t
    have h := rho_entry ell lanes (orbitPoint t).1 (orbitPoint t).2 (t : Int)
      hb.1 hb.2 (tmatrix_orbit t ht) (by positivity)
    rw [Int.toNat_natCast] at h
    exact h
  · intro ell lanes
    rw [rhoStep, laneGet_rangeMap _ 0 0 (by norm_num) (by norm_num)]
    simp only []
    rw [show (compute_t_matrix.getD 0 []).getD 0 (-1) = (-1 : Int) by decide]
    norm_num

/-- C8 witness: the rho offsets at `ℓ = 3`, `t = 2`, lane `(2,1)`, on a
concrete state. -/
theorem keccak_rho_offsets_witness :
    laneGet (rhoStep 3 compute_t_matrix
        (List.replicate 5 (List.replicate 5 9))) 2 1 =
      ROL 9 (3 * 4 / 2 % 2 ^ 3) (2 ^ 3) := by
  have h := keccak_rho_offsets.2.2.2.1 3 (List.replicate 5 (List.replicate 5 9))
    2 (by norm_num)
  rw [show orbitPoint 2 = (2, 1) from rfl] at h
  rw [h]
  norm_num [laneGet]

end PyCrypto
